import Mathlib

/-!
# QWBP (QR-WebRTC Bootstrap Protocol): verification of the core library

A shallow embedding of the qwbp TypeScript library: the binary packet codec
(`encode` / `decode`), the credential derivation and fingerprint comparison
(`deriveCredentials`, `compareFingerprints`, `generateSAS`), the SDP candidate
line builder (`buildCandidateString`) and the scanned-payload processing step of
the connection state machine (`processScannedPayload`).

JavaScript strings are embedded as `List Char`; byte arrays as `List Nat` with
values below 256; fallible operations return `Except`.  JS `parseInt`,
`String.prototype.split`, `replace`, and the one regular expression used by the
decoder's IPv6 zero-run compression are modelled by explicit executable
functions that follow the ECMAScript semantics the source relies on.
-/

set_option maxRecDepth 100000

namespace QWBP

/-- Decidable equality for `Except`, used to settle concrete codec facts
by evaluation. -/
instance {ε α : Type} [DecidableEq ε] [DecidableEq α] : DecidableEq (Except ε α)
  | .ok a, .ok b =>
      if h : a = b then isTrue (by rw [h]) else isFalse (by simp [h])
  | .error a, .error b =>
      if h : a = b then isTrue (by rw [h]) else isFalse (by simp [h])
  | .ok _, .error _ => isFalse (by simp)
  | .error _, .ok _ => isFalse (by simp)

/-- Byte sequences are lists of naturals (values < 256 where produced). -/
abbrev Bytes := List Nat

/-- Strings of the JS source are embedded as lists of characters. -/
abbrev Str := List Char

/-- Model of JS `String.prototype.split` with a single-character separator:
every occurrence splits, empty pieces are kept (`"a..b"` gives
`["a", "", "b"]`). -/
def splitOnChar (sep : Char) : Str → List Str
  | [] => [[]]
  | c :: rest =>
      let r := splitOnChar sep rest
      if c = sep then [] :: r
      else match r with
        | [] => [[c]]
        | h :: t => (c :: h) :: t

/-- First index at which `pat` occurs as a sublist of `s`, if any. -/
def findSub (pat s : Str) : Option Nat :=
  match s with
  | [] => if pat = [] then some 0 else none
  | _ :: rest =>
      if pat.isPrefixOf s then some 0
      else match findSub pat rest with
        | some i => some (i + 1)
        | none => none

/-- Whether `pat` occurs as a contiguous substring of `s`
(model of JS `String.prototype.includes` with a string argument). -/
def containsSub (pat s : Str) : Bool :=
  (findSub pat s).isSome

/-- Model of JS `String.prototype.replace` with a plain-string pattern:
replaces only the first occurrence; the string is unchanged when the
pattern does not occur. -/
def replaceFirst (pat repl s : Str) : Str :=
  match findSub pat s with
  | none => s
  | some i => s.take i ++ repl ++ s.drop (i + pat.length)

/-- Worker for `splitOnStr`; the fuel only bounds the recursion depth and
`s.length + 1` always suffices, since every round past a found separator
consumes at least one character. -/
def splitOnStrGo (sep : Str) : Nat → Str → List Str
  | 0, s => [s]
  | fuel + 1, s =>
      match findSub sep s with
      | none => [s]
      | some i =>
          if sep.length = 0 then [s]
          else s.take i :: splitOnStrGo sep fuel (s.drop (i + sep.length))

/-- Model of JS `String.prototype.split` with a non-empty string separator:
leftmost non-overlapping occurrences split the string. -/
def splitOnStr (sep : Str) (s : Str) : List Str :=
  splitOnStrGo sep (s.length + 1) s

/-- JS whitespace accepted by `parseInt` before the number (ASCII subset). -/
def isJsSpace (c : Char) : Bool :=
  c = ' ' || c = '\t' || c = '\n' || c = '\r' || c = '\x0b' || c = '\x0c'

/-- Value of a character as a digit in the given radix, if valid. -/
def digitVal (radix : Nat) (c : Char) : Option Nat :=
  let v : Nat :=
    if '0' ≤ c ∧ c ≤ '9' then c.toNat - '0'.toNat
    else if 'a' ≤ c ∧ c ≤ 'z' then c.toNat - 'a'.toNat + 10
    else if 'A' ≤ c ∧ c ≤ 'Z' then c.toNat - 'A'.toNat + 10
    else 99
  if v < radix then some v else none

/-- Longest prefix of valid digits, folded into a value; `none` if empty. -/
def takeDigits (radix : Nat) : Str → Option Nat → Nat → Option Nat
  | [], acc, _ => acc
  | c :: rest, acc, v =>
      match digitVal radix c with
      | some d => takeDigits radix rest (some (v * radix + d)) (v * radix + d)
      | none => acc

/-- Model of ECMAScript `parseInt(s, radix)` for radix 10 and 16: skip leading
whitespace, read an optional sign, for radix 16 strip an optional `0x`/`0X`,
then take the longest prefix of valid digits (ignoring any trailing garbage);
`none` models `NaN`. -/
def jsParseInt (radix : Nat) (s : Str) : Option Int :=
  let s1 := s.dropWhile isJsSpace
  let (sign, s2) : Int × Str :=
    match s1 with
    | '-' :: r => (-1, r)
    | '+' :: r => (1, r)
    | _ => (1, s1)
  let s3 :=
    if radix = 16 then
      match s2 with
      | '0' :: 'x' :: r => r
      | '0' :: 'X' :: r => r
      | _ => s2
    else s2
  match takeDigits radix s3 none 0 with
  | none => none
  | some v => some (sign * (v : Int))

/-- JS `ToUint8` coercion applied when a value is stored into a `Uint8Array`:
`NaN` becomes 0, other values are reduced modulo 256 (Euclidean, so the
result is in `0..255` also for negative inputs). -/
def toUint8 : Option Int → Nat
  | none => 0
  | some v => (v.emod 256).toNat

/-- Sequential fallible map: the source's `for`-loops throw on the first
bad element, later elements are not examined. -/
def mapExcept {ε α β : Type} (f : α → Except ε β) : List α → Except ε (List β)
  | [] => .ok []
  | x :: xs =>
      match f x with
      | .error e => .error e
      | .ok y =>
          match mapExcept f xs with
          | .error e => .error e
          | .ok ys => .ok (y :: ys)

/-! ## Data model (src/types.ts) and protocol constants (src/constants.ts) -/

/-- ICE candidate type: `'host' | 'srflx'`. -/
inductive CandType
  | host
  | srflx
deriving DecidableEq, Repr

/-- Transport protocol: `'udp' | 'tcp'`. -/
inductive Proto
  | udp
  | tcp
deriving DecidableEq, Repr

/-- TCP candidate subtype: `'passive' | 'active' | 'so'`. -/
inductive TcpKind
  | passive
  | active
  | so
deriving DecidableEq, Repr

/-- `QWBPCandidate`: `{ ip, port, type, protocol, tcpType? }`. -/
structure QWBPCandidate where
  ip : Str
  port : Nat
  type : CandType
  protocol : Proto
  tcpType : Option TcpKind := none
deriving DecidableEq, Repr

/-- `QWBPPacket`: `{ version, fingerprint, candidates }`. -/
structure QWBPPacket where
  version : Nat
  fingerprint : Bytes
  candidates : List QWBPCandidate
deriving DecidableEq, Repr

def MAGIC_BYTE : Nat := 0x51

def PROTOCOL_VERSION : Nat := 0

def FINGERPRINT_SIZE : Nat := 32

def HEADER_SIZE : Nat := 2

/-- `HEADER_SIZE + FINGERPRINT_SIZE + 7`. -/
def MIN_PACKET_SIZE : Nat := HEADER_SIZE + FINGERPRINT_SIZE + 7

/-! ## Encoder (src/encoder.ts) -/

/-- The sites at which `QWBPEncodeError` is thrown in src/encoder.ts. -/
inductive EncErr
  | invalidFingerprintLength (got : Nat)
  | invalidIPv4 (ip : Str)
  | invalidIPv6 (ip : Str)
  | invalidIPv4Mapped (ip : Str)
  | invalidMdns (ip : Str)
deriving DecidableEq, Repr

/-- The characters of the literal `".local"`. -/
def dotLocal : Str := ".local".data

/-- `isMdns`: `ip.endsWith('.local')`. -/
def isMdns (ip : Str) : Bool :=
  dotLocal.isSuffixOf ip

/-- `isIPv6`: `ip.includes(':')`. -/
def isIPv6 (ip : Str) : Bool :=
  ip.contains ':'

/-- `parseIPv4`: split on `'.'`, require exactly 4 parts, each read with
`parseInt(part, 10)` and required to be in `0..255`. -/
def parseIPv4 (ip : Str) : Except EncErr Bytes := do
  let parts := splitOnChar '.' ip
  if parts.length ≠ 4 then throw (EncErr.invalidIPv4 ip)
  mapExcept (fun i =>
    match jsParseInt 10 (parts.getD i []) with
    | none => throw (EncErr.invalidIPv4 ip)
    | some v =>
        if v < 0 ∨ v > 255 then throw (EncErr.invalidIPv4 ip)
        else pure v.toNat) (List.range 4)

/-- `ip.replace(/^\[|\]$/g, '')`: drop one leading `'['` and one
trailing `']'`. -/
def stripBrackets (s : Str) : Str :=
  let s1 := match s with
    | '[' :: r => r
    | _ => s
  match s1.reverse with
  | ']' :: r => r.reverse
  | _ => s1

/-- Character class `[0-9a-fA-F:]`. -/
def isHexOrColon (c : Char) : Bool :=
  ('0' ≤ c && c ≤ '9') || ('a' ≤ c && c ≤ 'f') || ('A' ≤ c && c ≤ 'F') || c = ':'

/-- Decimal digit test (`\d`). -/
def isDigitCh (c : Char) : Bool :=
  '0' ≤ c && c ≤ '9'

/-- Matcher for one `\d{1,3}` capture group followed by the rest of the
pattern: take all leading digits, require 1 to 3 of them, return them with
the remaining input. -/
def takeOctetDigits (s : Str) : Option (Str × Str) :=
  let digs := s.takeWhile isDigitCh
  if 1 ≤ digs.length ∧ digs.length ≤ 3 then some (digs, s.drop digs.length)
  else none

/-- Matcher for `/^::ffff:(\d{1,3})\.(\d{1,3})\.(\d{1,3})\.(\d{1,3})$/i`:
on success returns the four captured digit groups. -/
def matchIPv4Mapped (s : Str) : Option (List Str) :=
  match s with
  | ':' :: ':' :: a :: b :: c :: d :: ':' :: rest =>
      if (a = 'f' || a = 'F') && (b = 'f' || b = 'F') &&
         (c = 'f' || c = 'F') && (d = 'f' || d = 'F') then
        match takeOctetDigits rest with
        | none => none
        | some (g1, r1) =>
          match r1 with
          | '.' :: r1' =>
            match takeOctetDigits r1' with
            | none => none
            | some (g2, r2) =>
              match r2 with
              | '.' :: r2' =>
                match takeOctetDigits r2' with
                | none => none
                | some (g3, r3) =>
                  match r3 with
                  | '.' :: r3' =>
                    match takeOctetDigits r3' with
                    | none => none
                    | some (g4, r4) =>
                        if r4 = [] then some [g1, g2, g3, g4] else none
                  | _ => none
              | _ => none
          | _ => none
      else none
  | _ => none

/-- Count of non-overlapping `::` matches (`(cleaned.match(/::/g) || []).length`). -/
def doubleColonCount : Str → Nat
  | ':' :: ':' :: rest => 1 + doubleColonCount rest
  | _ :: rest => doubleColonCount rest
  | [] => 0

/-- `isValidIPv6Format`: brackets removed, then either the IPv4-mapped form, or
a nonempty string over `[0-9a-fA-F:]` with at most one `::` that does not start
or end with a single colon. -/
def isValidIPv6Format (ip : Str) : Bool :=
  let cleaned := stripBrackets ip
  if (matchIPv4Mapped cleaned).isSome then true
  else if !(cleaned ≠ [] && cleaned.all isHexOrColon) then false
  else if doubleColonCount cleaned > 1 then false
  else if (cleaned.head? = some ':' && !([':', ':'].isPrefixOf cleaned)) ||
          (cleaned.getLast? = some ':' && !([':', ':'].isSuffixOf cleaned)) then
    false
  else true

/-- `parseIPv6`: strip brackets, validate, then either the IPv4-mapped branch
or `::` expansion into 8 hex groups of at most 4 digits each. -/
def parseIPv6 (ip : Str) : Except EncErr Bytes := do
  let cleaned := stripBrackets ip
  if !isValidIPv6Format cleaned then throw (EncErr.invalidIPv6 ip)
  match matchIPv4Mapped cleaned with
  | some groups => do
      let octets ← mapExcept (fun g =>
        match jsParseInt 10 g with
        | some v =>
            if v > 255 then throw (EncErr.invalidIPv4Mapped ip)
            else pure v.toNat
        | none => throw (EncErr.invalidIPv4Mapped ip)) groups
      pure (List.replicate 10 0 ++ [0xff, 0xff] ++ octets)
  | none => do
      let parts := splitOnStr [':', ':'] cleaned
      if parts.length > 2 then throw (EncErr.invalidIPv6 ip)
      let leftParts :=
        match parts.getD 0 [] with
        | [] => []
        | p => (splitOnChar ':' p).filter (· ≠ [])
      let rightParts :=
        if parts.length > 1 then
          match parts.getD 1 [] with
          | [] => []
          | p => (splitOnChar ':' p).filter (· ≠ [])
        else []
      let totalParts := leftParts.length + rightParts.length
      if totalParts > 8 ∨ (parts.length = 1 ∧ totalParts ≠ 8) then
        throw (EncErr.invalidIPv6 ip)
      let zeroGroups := 8 - totalParts
      let allParts := leftParts ++ List.replicate zeroGroups ['0'] ++ rightParts
      let words ← mapExcept (fun i => do
        let hp := allParts.getD i []
        let hexPart := if hp = [] then ['0'] else hp
        if hexPart.length > 4 then throw (EncErr.invalidIPv6 ip)
        match jsParseInt 16 hexPart with
        | none => throw (EncErr.invalidIPv6 ip)
        | some v =>
            if v > 0xffff then throw (EncErr.invalidIPv6 ip)
            else pure v.toNat) (List.range 8)
      pure (words.map fun v => [(v >>> 8) &&& 0xff, v &&& 0xff]).flatten

/-- `parseMdnsUUID`: remove the first `".local"` and every `'-'`, require 32
remaining characters, and read 16 two-character groups with
`parseInt(-, 16)` stored through `Uint8Array` coercion. -/
def parseMdnsUUID (hostname : Str) : Except EncErr Bytes := do
  let uuid := (replaceFirst dotLocal [] hostname).filter (· ≠ '-')
  if uuid.length ≠ 32 then throw (EncErr.invalidMdns hostname)
  pure ((List.range 16).map fun i => toUint8 (jsParseInt 16 ((uuid.drop (2 * i)).take 2)))

/-- `encodeCandidate`: family dispatch (mDNS, then IPv6, then IPv4), flags
byte `family | protocol << 2 | type << 3 | tcpType << 4`, address bytes,
big-endian port. -/
def encodeCandidate (c : QWBPCandidate) : Except EncErr Bytes :=
  let isMdnsAddr := isMdns c.ip
  let isIPv6Addr := !isMdnsAddr && isIPv6 c.ip
  let addressFamily : Nat := if isMdnsAddr then 2 else if isIPv6Addr then 1 else 0
  let parsed :=
    if isMdnsAddr then parseMdnsUUID c.ip
    else if isIPv6Addr then parseIPv6 c.ip
    else parseIPv4 c.ip
  match parsed with
  | .error e => .error e
  | .ok addressBytes =>
      let protocol : Nat := if c.protocol = Proto.tcp then 1 else 0
      let ty : Nat := if c.type = CandType.srflx then 1 else 0
      let tcpT : Nat :=
        if c.protocol = Proto.tcp then
          match c.tcpType with
          | some TcpKind.active => 1
          | some TcpKind.so => 2
          | some TcpKind.passive => 0
          | none => 0
        else 0
      let flags := addressFamily ||| (protocol <<< 2) ||| (ty <<< 3) ||| (tcpT <<< 4)
      .ok (flags :: addressBytes ++ [(c.port >>> 8) &&& 0xff, c.port &&& 0xff])

/-- `encode`: 32-byte fingerprint check, then magic, version byte,
fingerprint, concatenated candidate records. -/
def encode (fingerprint : Bytes) (candidates : List QWBPCandidate) :
    Except EncErr Bytes := do
  if fingerprint.length ≠ FINGERPRINT_SIZE then
    throw (EncErr.invalidFingerprintLength fingerprint.length)
  let recs ← mapExcept encodeCandidate candidates
  pure (MAGIC_BYTE :: PROTOCOL_VERSION :: fingerprint ++ recs.flatten)

/-! ## Decoder (src/decoder.ts) -/

/-- Digits of `n` in the given base (≥ 2), least significant first (empty
for 0); the fuel only bounds the recursion depth and `n` itself always
suffices, since the argument at least halves every round. -/
def natToDigits (base : Nat) : Nat → Nat → Str
  | 0, _ => []
  | fuel + 1, n =>
      if n = 0 then []
      else
        (if n % base < 10 then Char.ofNat ('0'.toNat + n % base)
         else Char.ofNat ('a'.toNat + (n % base - 10))) :: natToDigits base fuel (n / base)

/-- Model of JS `Number.prototype.toString(base)` for naturals: minimal
digits, lowercase, and `"0"` for zero. -/
def natStr (base n : Nat) : Str :=
  if n = 0 then ['0'] else (natToDigits base n n).reverse

/-- Decimal rendering (`toString()`/`join` on numbers). -/
def natDec (n : Nat) : Str := natStr 10 n

/-- Lowercase hexadecimal rendering (`toString(16)`). -/
def natHex (n : Nat) : Str := natStr 16 n

/-- Model of `String.prototype.padStart(n, c)`. -/
def padStart (n : Nat) (c : Char) (s : Str) : Str :=
  List.replicate (n - s.length) c ++ s

/-- `Array.prototype.join` with a one-character separator. -/
def intercalate (sep : Char) : List Str → Str
  | [] => []
  | [x] => x
  | x :: xs => x ++ sep :: intercalate sep xs

/-- `formatIPv4`: `Array.from(bytes).join('.')`. -/
def formatIPv4 (bytes : Bytes) : Str :=
  intercalate '.' (bytes.map natDec)

/-- Number of leading `":0"` pairs (the greedy `(?::0)+` repetitions). -/
def runPairs : Str → Nat
  | ':' :: '0' :: rest => 1 + runPairs rest
  | _ => 0

/-- Matches `0(?::0)+(?::|$)` at the head of `s` (the part of the
decoder's zero-run regex after its `(?:^|:)` prefix), with the greedy
repetition backtracking one pair when neither `':'` nor the end of input
follows, exactly as the ECMAScript engine does.  Returns the consumed
characters and the rest of the input. -/
def matchRunCore (s : Str) : Option (Str × Str) :=
  match s with
  | '0' :: rest =>
      let m := runPairs rest
      if m = 0 then none
      else
        match rest.drop (2 * m) with
        | [] => some ('0' :: rest.take (2 * m), [])
        | ':' :: r2 => some ('0' :: rest.take (2 * m) ++ [':'], r2)
        | c :: r2 =>
            if m ≥ 2 then
              some ('0' :: rest.take (2 * (m - 1)) ++ [':'], '0' :: c :: r2)
            else none
  | _ => none

/-- One attempt of the zero-run regex `(?:^|:)(0(?::0)+)(?::|$)` at the
current position; `atStart` is true only at absolute position 0, where the
`^` alternative applies. -/
def zeroRunMatchAt (s : Str) (atStart : Bool) : Option (Str × Str) :=
  if atStart then
    match matchRunCore s with
    | some mr => some mr
    | none =>
        match s with
        | ':' :: t => (matchRunCore t).map fun mr => (':' :: mr.1, mr.2)
        | _ => none
  else
    match s with
    | ':' :: t => (matchRunCore t).map fun mr => (':' :: mr.1, mr.2)
    | _ => none

/-- Global scan of the zero-run regex (`result.match(/(?:^|:)(0(?::0)+)(?::|$)/g)`):
non-overlapping leftmost matches; on failure the scan advances one
character.  The fuel starts at `s.length + 1`, which the scan can never
exhaust since every step consumes at least one character. -/
def zeroRunsGo : Nat → Str → Bool → List Str
  | 0, _, _ => []
  | _, [], _ => []
  | fuel + 1, s, atStart =>
      match zeroRunMatchAt s atStart with
      | some (m, r) => m :: zeroRunsGo fuel r false
      | none => zeroRunsGo fuel s.tail false

/-- All matches of the decoder's zero-run regex over `s`. -/
def zeroRuns (s : Str) : List Str :=
  zeroRunsGo (s.length + 1) s true

/-- `runs.reduce((a, b) => (a.length > b.length ? a : b))`: on ties the
later match wins, because the reducer keeps `a` only when strictly
longer. -/
def longestRun : List Str → Option Str
  | [] => none
  | h :: t => some (t.foldl (fun a b => if a.length > b.length then a else b) h)

/-- `formatIPv6`: eight minimal lowercase hex groups joined with `':'`,
then the longest zero run (ties broken as the source's `reduce` does)
replaced by `"::"` at its first occurrence in the string. -/
def formatIPv6 (bytes : Bytes) : Str :=
  let parts := (List.range 8).map fun i =>
    natHex ((bytes.getD (2 * i) 0 <<< 8) ||| bytes.getD (2 * i + 1) 0)
  let joined := intercalate ':' parts
  match longestRun (zeroRuns joined) with
  | none => joined
  | some longest => replaceFirst longest [':', ':'] joined

/-- Two-character lowercase hex (`toString(16).padStart(2, '0')`). -/
def natHexPad2 (b : Nat) : Str :=
  padStart 2 '0' (natHex b)

/-- `formatMdns`: the 32 hex characters sliced as
`8-4-4-4-12` with dashes, plus `".local"`. -/
def formatMdns (bytes : Bytes) : Str :=
  let hex := (bytes.map natHexPad2).flatten
  hex.take 8 ++ '-' :: ((hex.drop 8).take 4) ++ '-' :: ((hex.drop 12).take 4) ++
    '-' :: ((hex.drop 16).take 4) ++ '-' :: ((hex.drop 20).take 12) ++ dotLocal

/-- The sites at which `QWBPDecodeError` is thrown in src/decoder.ts, plus
`oob`, a marker for a `Uint8Array` read that would be out of bounds (it is
proved below that `decode` never produces it). -/
inductive DecErr
  | tooShort (got : Nat)
  | badMagic (got : Nat)
  | badVersion (v : Nat)
  | unexpectedEnd
  | truncatedIPv4
  | truncatedIPv6
  | truncatedMdns
  | unknownFamily (f : Nat)
  | oob
deriving DecidableEq, Repr

/-- The tail of `decodeCandidate` after the address-family switch: read the
big-endian port at `portOffset = offset + 1 + addressLength` (`rest` holds
the bytes after the flags byte, so indices `addressLength` and
`addressLength + 1`), then build the candidate with the `tcpType`
normalization for tcp candidates.  Returns the candidate and `bytesRead`. -/
def finishCandidate (flags : Nat) (rest : Bytes) (addressLength : Nat)
    (ip : Str) : Except DecErr (QWBPCandidate × Nat) :=
  let protocol := (flags >>> 2) &&& 0b1
  let ty := (flags >>> 3) &&& 0b1
  let tcpT := (flags >>> 4) &&& 0b11
  match rest.get? addressLength, rest.get? (addressLength + 1) with
  | some hi, some lo =>
      .ok
        ({ ip := ip
           port := (hi <<< 8) ||| lo
           type := if ty = 1 then CandType.srflx else CandType.host
           protocol := if protocol = 1 then Proto.tcp else Proto.udp
           tcpType :=
             if protocol = 1 then
               some (if tcpT = 1 then TcpKind.active
                     else if tcpT = 2 then TcpKind.so
                     else TcpKind.passive)
             else none },
         1 + addressLength + 2)
  | _, _ => .error DecErr.oob

/-- `decodeCandidate`, expressed on the byte suffix starting at the current
offset (all of the source's reads and checks are relative to `offset`):
flag-bit extraction, per-family truncation check against the declared
record extent, address formatting, then `finishCandidate`. -/
def decodeCandidate (s : Bytes) : Except DecErr (QWBPCandidate × Nat) :=
  match s with
  | [] => .error DecErr.unexpectedEnd
  | flags :: rest =>
    match flags &&& 0b11 with
    | 0 =>
        if 1 + 4 + 2 > s.length then .error DecErr.truncatedIPv4
        else finishCandidate flags rest 4 (formatIPv4 (rest.take 4))
    | 1 =>
        if 1 + 16 + 2 > s.length then .error DecErr.truncatedIPv6
        else finishCandidate flags rest 16 (formatIPv6 (rest.take 16))
    | 2 =>
        if 1 + 16 + 2 > s.length then .error DecErr.truncatedMdns
        else finishCandidate flags rest 16 (formatMdns (rest.take 16))
    | f => .error (DecErr.unknownFamily f)

/-- Worker for the candidate-parsing loop of `decode`.  The fuel only
bounds the recursion depth; `s.length + 1` always suffices because every
accepted record advances the offset by at least 7 bytes (the exhaustion
branch returns the internal `oob` marker, which the totality theorem below
proves unreachable). -/
def decodeCandsGo : Nat → Bytes → Except DecErr (List QWBPCandidate)
  | 0, _ => .error DecErr.oob
  | fuel + 1, s =>
      if s = [] then pure []
      else
        match decodeCandidate s with
        | .error e => .error e
        | .ok (c, n) =>
            match decodeCandsGo fuel (s.drop n) with
            | .error e => .error e
            | .ok cs => .ok (c :: cs)

/-- The candidate-parsing loop of `decode`: records are consumed
sequentially until the byte sequence is exhausted. -/
def decodeCands (s : Bytes) : Except DecErr (List QWBPCandidate) :=
  decodeCandsGo (s.length + 1) s

/-- `decode`: minimum size, magic byte, version bits, fingerprint slice,
then the candidate loop from offset 34. -/
def decode (data : Bytes) : Except DecErr QWBPPacket :=
  if data.length < MIN_PACKET_SIZE then .error (DecErr.tooShort data.length)
  else
    match data.get? 0 with
    | none => .error DecErr.oob
    | some b0 =>
      if b0 ≠ MAGIC_BYTE then .error (DecErr.badMagic b0)
      else
        match data.get? 1 with
        | none => .error DecErr.oob
        | some b1 =>
          let version := b1 &&& 0b111
          if version ≠ 0 then .error (DecErr.badVersion version)
          else
            let fingerprint := (data.drop HEADER_SIZE).take FINGERPRINT_SIZE
            match decodeCands (data.drop (HEADER_SIZE + FINGERPRINT_SIZE)) with
            | .error e => .error e
            | .ok candidates =>
                .ok { version := version, fingerprint := fingerprint
                      candidates := candidates }

/-- `isValidPacket`: minimum length, magic byte and version bits only
(both byte reads are in bounds once the length check has passed). -/
def isValidPacket (data : Bytes) : Bool :=
  if data.length < MIN_PACKET_SIZE then false
  else if data.getD 0 0 ≠ MAGIC_BYTE then false
  else (data.getD 1 0) &&& 0b111 = 0

/-! ## SHA-256, HMAC and HKDF

The source calls the WebCrypto primitives `crypto.subtle.digest('SHA-256', -)`
and HKDF-SHA256 `deriveBits`.  These are embedded by their standard
definitions (FIPS 180-4 and RFC 2104 / RFC 5869) over byte lists, with
32-bit words as naturals reduced modulo `2^32`. -/

/-- Truncation to a 32-bit word. -/
def w32 (n : Nat) : Nat := n % 4294967296

/-- 32-bit right rotation. -/
def rotr (n x : Nat) : Nat := w32 ((x >>> n) ||| (x <<< (32 - n)))

def ssig0 (x : Nat) : Nat := rotr 7 x ^^^ rotr 18 x ^^^ (x >>> 3)

def ssig1 (x : Nat) : Nat := rotr 17 x ^^^ rotr 19 x ^^^ (x >>> 10)

def bsig0 (x : Nat) : Nat := rotr 2 x ^^^ rotr 13 x ^^^ rotr 22 x

def bsig1 (x : Nat) : Nat := rotr 6 x ^^^ rotr 11 x ^^^ rotr 25 x

/-- The 64 SHA-256 round constants. -/
def shaK : List Nat :=
  [1116352408, 1899447441, 3049323471, 3921009573, 961987163, 1508970993,
   2453635748, 2870763221, 3624381080, 310598401, 607225278, 1426881987,
   1925078388, 2162078206, 2614888103, 3248222580, 3835390401, 4022224774,
   264347078, 604807628, 770255983, 1249150122, 1555081692, 1996064986,
   2554220882, 2821834349, 2952996808, 3210313671, 3336571891, 3584528711,
   113926993, 338241895, 666307205, 773529912, 1294757372, 1396182291,
   1695183700, 1986661051, 2177026350, 2456956037, 2730485921, 2820302411,
   3259730800, 3345764771, 3516065817, 3600352804, 4094571909, 275423344,
   430227734, 506948616, 659060556, 883997877, 958139571, 1322822218,
   1537002063, 1747873779, 1955562222, 2024104815, 2227730452, 2361852424,
   2428436474, 2756734187, 3204031479, 3329325298]

/-- SHA-256 working state (eight 32-bit words). -/
structure Hash8 where
  a : Nat
  b : Nat
  c : Nat
  d : Nat
  e : Nat
  f : Nat
  g : Nat
  h : Nat
deriving DecidableEq, Repr

/-- SHA-256 initial hash value. -/
def shaInit : Hash8 :=
  ⟨1779033703, 3144134277, 1013904242, 2773480762,
   1359893119, 2600822924, 528734635, 1541459225⟩

/-- FIPS 180-4 padding: `0x80`, zeros to 56 mod 64, 8-byte big-endian bit
length. -/
def padMessage (msg : Bytes) : Bytes :=
  let L := msg.length
  let k := (56 + 64 - (L + 1) % 64) % 64
  msg ++ 0x80 :: List.replicate k 0 ++
    (List.range 8).map fun i => ((8 * L) >>> (8 * (7 - i))) &&& 0xff

/-- Worker for `chunks64`; the fuel only bounds the recursion depth and
`l.length` always suffices, since every round consumes 64 characters. -/
def chunks64Go : Nat → Bytes → List Bytes
  | 0, _ => []
  | fuel + 1, l =>
      if l = [] then []
      else l.take 64 :: chunks64Go fuel (l.drop 64)

/-- Split into 64-byte blocks. -/
def chunks64 (l : Bytes) : List Bytes :=
  chunks64Go (l.length + 1) l

/-- The 16 big-endian message words of one 64-byte block. -/
def blockWords (b : Bytes) : List Nat :=
  (List.range 16).map fun i =>
    (b.getD (4 * i) 0 <<< 24) ||| (b.getD (4 * i + 1) 0 <<< 16) |||
      (b.getD (4 * i + 2) 0 <<< 8) ||| b.getD (4 * i + 3) 0

/-- Message-schedule extension by the given number of additional words. -/
def extendW (w : List Nat) : Nat → List Nat
  | 0 => w
  | fuel + 1 =>
      let n := w.length
      extendW
        (w ++ [w32 (ssig1 (w.getD (n - 2) 0) + w.getD (n - 7) 0 +
          ssig0 (w.getD (n - 15) 0) + w.getD (n - 16) 0)]) fuel

/-- One SHA-256 round. -/
def shaRound (st : Hash8) (wk : Nat × Nat) : Hash8 :=
  let t1 := w32 (st.h + bsig1 st.e + ((st.e &&& st.f) ^^^ ((st.e ^^^ 0xffffffff) &&& st.g)) +
    wk.2 + wk.1)
  let t2 := w32 (bsig0 st.a + ((st.a &&& st.b) ^^^ (st.a &&& st.c) ^^^ (st.b &&& st.c)))
  ⟨w32 (t1 + t2), st.a, st.b, st.c, w32 (st.d + t1), st.e, st.f, st.g⟩

/-- SHA-256 compression of one block. -/
def compressBlock (h : Hash8) (blk : Bytes) : Hash8 :=
  let ws := extendW (blockWords blk) 48
  let st := (ws.zip shaK).foldl shaRound h
  ⟨w32 (h.a + st.a), w32 (h.b + st.b), w32 (h.c + st.c), w32 (h.d + st.d),
   w32 (h.e + st.e), w32 (h.f + st.f), w32 (h.g + st.g), w32 (h.h + st.h)⟩

/-- Big-endian bytes of a 32-bit word. -/
def wordBytes (w : Nat) : Bytes :=
  [(w >>> 24) &&& 0xff, (w >>> 16) &&& 0xff, (w >>> 8) &&& 0xff, w &&& 0xff]

/-- SHA-256 digest (32 bytes). -/
def sha256 (msg : Bytes) : Bytes :=
  let fin := (chunks64 (padMessage msg)).foldl compressBlock shaInit
  wordBytes fin.a ++ wordBytes fin.b ++ wordBytes fin.c ++ wordBytes fin.d ++
    wordBytes fin.e ++ wordBytes fin.f ++ wordBytes fin.g ++ wordBytes fin.h

/-- HMAC-SHA256 (RFC 2104): block size 64 bytes. -/
def hmacSha256 (key msg : Bytes) : Bytes :=
  let k1 := if 64 < key.length then sha256 key else key
  let k0 := k1 ++ List.replicate (64 - k1.length) 0
  sha256 ((k0.map (· ^^^ 0x5c)) ++ sha256 ((k0.map (· ^^^ 0x36)) ++ msg))

/-- HKDF-Expand output blocks `T(1), T(2), …` (RFC 5869). -/
def hkdfBlocks (prk info : Bytes) (prev : Bytes) (i : Nat) : Nat → Bytes
  | 0 => []
  | blocksLeft + 1 =>
      let t := hmacSha256 prk (prev ++ info ++ [i])
      t ++ hkdfBlocks prk info t (i + 1) blocksLeft

/-- Model of `crypto.subtle.deriveBits` for HKDF-SHA256: extract with the
given salt, then expand to `length` bytes. -/
def hkdfDerive (ikm salt info : Bytes) (length : Nat) : Bytes :=
  (hkdfBlocks (hmacSha256 salt ikm) info [] 1 ((length + 31) / 32)).take length

/-! ## Credentials, fingerprint comparison, SAS (src/crypto.ts) -/

/-- The standard base64 alphabet (`btoa` output characters, minus `'='`). -/
def b64StdTable : Str :=
  "ABCDEFGHIJKLMNOPQRSTUVWXYZabcdefghijklmnopqrstuvwxyz0123456789+/".data

/-- The plain base64 encoding of a byte list without the `'='` padding
(`btoa` emits padding which `base64urlEncode` strips; the model omits it
directly). -/
def base64Std : Bytes → Str
  | a :: b :: c :: rest =>
      b64StdTable.getD (a >>> 2) '?' ::
        b64StdTable.getD (((a &&& 0x3) <<< 4) ||| (b >>> 4)) '?' ::
        b64StdTable.getD (((b &&& 0xf) <<< 2) ||| (c >>> 6)) '?' ::
        b64StdTable.getD (c &&& 0x3f) '?' :: base64Std rest
  | [a, b] =>
      [b64StdTable.getD (a >>> 2) '?',
       b64StdTable.getD (((a &&& 0x3) <<< 4) ||| (b >>> 4)) '?',
       b64StdTable.getD ((b &&& 0xf) <<< 2) '?']
  | [a] =>
      [b64StdTable.getD (a >>> 2) '?',
       b64StdTable.getD ((a &&& 0x3) <<< 4) '?']
  | [] => []

/-- `base64urlEncode`: base64, then `'+' → '-'`, `'/' → '_'`, `'='`
removed. -/
def base64urlEncode (bytes : Bytes) : Str :=
  (base64Std bytes).map fun c => if c = '+' then '-' else if c = '/' then '_' else c

/-- UTF-8 bytes of an ASCII string (`new TextEncoder().encode(-)`; every
string the source encodes is ASCII). -/
def asciiBytes (s : Str) : Bytes := s.map Char.toNat

def HKDF_INFO_UFRAG : Bytes := asciiBytes "QWBP-ICE-UFRAG-v1".data

def HKDF_INFO_PWD : Bytes := asciiBytes "QWBP-ICE-PWD-v1".data

def HKDF_UFRAG_LENGTH : Nat := 4

def HKDF_PWD_LENGTH : Nat := 18

/-- `IceCredentials`: `{ ufrag, pwd }`. -/
structure IceCredentials where
  ufrag : Str
  pwd : Str
deriving DecidableEq, Repr

/-- The generic `Error` thrown by `deriveCredentials`. -/
inductive CredErr
  | invalidFingerprintLength (got : Nat)
deriving DecidableEq, Repr

/-- `deriveCredentials`: 32-byte check, then two HKDF-SHA256 expansions
with empty salt and the two info strings, base64url-encoded. -/
def deriveCredentials (fingerprint : Bytes) : Except CredErr IceCredentials :=
  if fingerprint.length ≠ 32 then .error (.invalidFingerprintLength fingerprint.length)
  else
    .ok
      { ufrag := base64urlEncode (hkdfDerive fingerprint [] HKDF_INFO_UFRAG HKDF_UFRAG_LENGTH)
        pwd := base64urlEncode (hkdfDerive fingerprint [] HKDF_INFO_PWD HKDF_PWD_LENGTH) }

/-- The loop body of `compareFingerprints` on paired byte lists: the first
differing byte decides.  In JS a comparison against `undefined` is false,
so once either array is exhausted the remaining indices are all skipped
and the loop returns 0; the `[]` cases reproduce that. -/
def cfAux : Bytes → Bytes → Int
  | x :: xs, y :: ys =>
      if x > y then 1 else if x < y then -1 else cfAux xs ys
  | _, _ => 0

/-- `compareFingerprints`: the loop runs over indices `0..31` only, so
only the first 32 bytes of each input participate. -/
def compareFingerprints (a b : Bytes) : Int :=
  cfAux (a.take 32) (b.take 32)

/-- Model of `Uint8Array.prototype.set` at an offset (the source only
calls it where the written range fits the buffer). -/
def uset (buf src : Bytes) (off : Nat) : Bytes :=
  buf.take off ++ src ++ buf.drop (off + src.length)

/-- `generateSAS`: canonical order (the fingerprint compared greater or
equal first) into a 64-byte buffer, SHA-256, first two bytes as a 16-bit
big-endian value, modulo 10000, zero-padded to 4 digits. -/
def generateSAS (localFingerprint remoteFingerprint : Bytes) : Str :=
  let comparison := compareFingerprints localFingerprint remoteFingerprint
  let zeros : Bytes := List.replicate 64 0
  let combined :=
    if 0 ≤ comparison then uset (uset zeros localFingerprint 0) remoteFingerprint 32
    else uset (uset zeros remoteFingerprint 0) localFingerprint 32
  let hashBytes := sha256 combined
  let value := (hashBytes.getD 0 0 <<< 8) ||| hashBytes.getD 1 0
  padStart 4 '0' (natDec (value % 10000))

/-! ## SDP candidate line builder (src/sdp.ts, constants from src/constants.ts) -/

def HOST_UDP_PRIORITY : Nat := 2122260223

def HOST_TCP_PRIORITY : Nat := 2105524223

def SRFLX_PRIORITY : Nat := 1686052607

/-- The wire words for candidate type (`'host' | 'srflx'`). -/
def typeStr : CandType → Str
  | CandType.host => "host".data
  | CandType.srflx => "srflx".data

/-- The wire words for protocol (`'udp' | 'tcp'`). -/
def protoStr : Proto → Str
  | Proto.udp => "udp".data
  | Proto.tcp => "tcp".data

/-- The wire words for tcp subtype (`'passive' | 'active' | 'so'`). -/
def tcpTypeStr : TcpKind → Str
  | TcpKind.passive => "passive".data
  | TcpKind.active => "active".data
  | TcpKind.so => "so".data

/-- `generateFoundation`: SHA-256 over
`` `${type}${protocol}${ip}${port}` ``, first 4 bytes as lowercase hex. -/
def generateFoundation (type : Str) (protocol : Str) (ip : Str) (port : Nat) : Str :=
  let data := asciiBytes (type ++ protocol ++ ip ++ natDec port)
  (((sha256 data).take 4).map natHexPad2).flatten

/-- `getCandidatePriority`: fixed priority per (type, protocol). -/
def getCandidatePriority (type : CandType) (protocol : Proto) : Nat :=
  if type = CandType.srflx then SRFLX_PRIORITY
  else if protocol = Proto.udp then HOST_UDP_PRIORITY
  else HOST_TCP_PRIORITY

/-- `buildCandidateString`: the base line, then for srflx candidates a
`raddr`/`rport` pair, then for tcp candidates with a subtype a `tcptype`
token. -/
def buildCandidateString (c : QWBPCandidate) : Str :=
  let foundation := generateFoundation (typeStr c.type) (protoStr c.protocol) c.ip c.port
  let priority := getCandidatePriority c.type c.protocol
  let s1 :=
    "candidate:".data ++ foundation ++ " 1 ".data ++ protoStr c.protocol ++
      ' ' :: natDec priority ++ ' ' :: c.ip ++ ' ' :: natDec c.port ++
      " typ ".data ++ typeStr c.type
  let s2 :=
    if c.type = CandType.srflx then
      s1 ++ " raddr ".data ++ c.ip ++ " rport ".data ++ natDec c.port
    else s1
  if c.protocol = Proto.tcp then
    match c.tcpType with
    | some t => s2 ++ " tcptype ".data ++ tcpTypeStr t
    | none => s2
  else s2

/-! ## Connection state machine: `processScannedPayload` (src/connection.ts)

The embedding covers the synchronous decision logic of
`processScannedPayload` up to the `tryEstablishConnection()` boundary,
which is where the orchestrator first touches the external WebRTC
transport.  The returned flag records that negotiation would be attempted.
JS exceptions propagate to the caller while field mutations made before
the throw persist, so the step returns the (possibly mutated) connection
state together with the outcome. -/

/-- `ConnectionState` (src/types.ts). -/
inductive ConnectionState
  | idle
  | gathering
  | displaying
  | scannedOne
  | connecting
  | connected
  | failed
  | closed
deriving DecidableEq, Repr

/-- `Role` (src/types.ts). -/
inductive Role
  | offerer
  | answerer
deriving DecidableEq, Repr

/-- `PeerInfo` (src/types.ts). -/
structure PeerInfo where
  fingerprint : Bytes
  candidates : List QWBPCandidate
  credentials : IceCredentials
deriving DecidableEq, Repr

/-- The fields of `QWBPConnection` that `processScannedPayload` reads or
writes before the transport boundary. -/
structure ConnState where
  state : ConnectionState
  localFingerprint : Option Bytes
  localCredentials : Option IceCredentials
  localCandidates : List QWBPCandidate
  remoteInfo : Option PeerInfo
  role : Option Role
deriving DecidableEq, Repr

/-- The errors `processScannedPayload` can raise before the transport
boundary: the two `QWBPConnectionError` precondition checks, the invalid
packet check, a propagating `QWBPDecodeError` from `decode`, a propagating
error from `deriveCredentials`, and `QWBPSelfConnectionError`. -/
inductive ConnErr
  | wrongState (st : ConnectionState)
  | peerAlreadyScanned (st : ConnectionState)
  | invalidPacket (st : ConnectionState)
  | decodeFailed (e : DecErr)
  | credFailed (e : CredErr)
  | selfConnection
deriving DecidableEq, Repr

/-- `processScannedPayload`: state precondition, single-scan check,
`isValidPacket` fast check, `decode`, peer-credential derivation, storing
`remoteInfo`, the self-connection check, and the `Displaying → ScannedOne`
transition; the trailing `tryEstablishConnection()` call is the model
boundary (flag `true`). -/
def processScannedPayload (conn : ConnState) (data : Bytes) :
    ConnState × Except ConnErr Bool :=
  if conn.state ≠ ConnectionState.displaying ∧ conn.state ≠ ConnectionState.scannedOne then
    (conn, .error (.wrongState conn.state))
  else if conn.remoteInfo.isSome then
    (conn, .error (.peerAlreadyScanned conn.state))
  else if !isValidPacket data then
    (conn, .error (.invalidPacket conn.state))
  else
    match decode data with
    | .error e => (conn, .error (.decodeFailed e))
    | .ok packet =>
      match deriveCredentials packet.fingerprint with
      | .error e => (conn, .error (.credFailed e))
      | .ok credentials =>
        let conn1 :=
          { conn with
            remoteInfo := some
              { fingerprint := packet.fingerprint
                candidates := packet.candidates
                credentials := credentials } }
        let isSelf :=
          match conn1.localFingerprint with
          | some lf => compareFingerprints lf packet.fingerprint == 0
          | none => false
        if isSelf then (conn1, .error .selfConnection)
        else
          let conn2 :=
            if conn1.state = ConnectionState.displaying then
              { conn1 with state := ConnectionState.scannedOne }
            else conn1
          (conn2, .ok true)

/-! ## Statement-side definitions

The following definitions phrase the conditions the claims quantify over;
they are built from the embedded source functions above. -/

/-- The address family `encode` selects for an address: mDNS before IPv6
before IPv4, as in `encodeCandidate`. -/
def addrFamily (ip : Str) : Nat :=
  if isMdns ip then 2 else if isIPv6 ip then 1 else 0

/-- The family-specific validation/parse `encode` applies to an address. -/
def addrParse (ip : Str) : Except EncErr Bytes :=
  if isMdns ip then parseMdnsUUID ip
  else if isIPv6 ip then parseIPv6 ip
  else parseIPv4 ip

/-- The family-specific textual rendering `decode` applies to address
bytes. -/
def addrFormat (fam : Nat) (bs : Bytes) : Str :=
  if fam = 2 then formatMdns bs else if fam = 1 then formatIPv6 bs else formatIPv4 bs

/-- An address is canonical when it parses and the decoder's rendering of
the parsed bytes reproduces it verbatim (the fixed points of the decode
∘ encode address normalization; exactly the strings `decode` itself can
produce). -/
def addrCanon (ip : Str) : Bool :=
  match addrParse ip with
  | .ok bs => addrFormat (addrFamily ip) bs == ip
  | .error _ => false

/-- A candidate round-trips when its address is canonical, its port is in
`1..65535`, and it carries a tcp subtype exactly when its protocol is
tcp. -/
def candCanon (c : QWBPCandidate) : Bool :=
  addrCanon c.ip && decide (1 ≤ c.port) && decide (c.port ≤ 65535) &&
    (match c.protocol, c.tcpType with
     | Proto.tcp, some _ => true
     | Proto.udp, none => true
     | _, _ => false)

/-- The claim-side candidate-region walk of C2: records are read in
sequence; an address-family value of `0b11` is invalid, and a record whose
declared length (7 bytes for IPv4, 19 for IPv6/mDNS) would read past the
end of the input is truncated. -/
def candRegionOkGo : Nat → Bytes → Bool
  | 0, _ => false
  | fuel + 1, s =>
      match s with
      | [] => true
      | flags :: rest =>
          let fam := flags &&& 0b11
          if fam = 3 then false
          else
            let recLen := if fam = 0 then 7 else 19
            if rest.length + 1 < recLen then false
            else candRegionOkGo fuel (rest.drop (recLen - 1))

/-- The claim-side candidate-region walk, with the same fuel convention as
`decodeCandsGo`. -/
def candRegionOk (s : Bytes) : Bool :=
  candRegionOkGo (s.length + 1) s

/-- URL-safe base64 alphabet membership (`A-Z a-z 0-9 - _`). -/
def isBase64UrlChar (c : Char) : Bool :=
  ('A' ≤ c && c ≤ 'Z') || ('a' ≤ c && c ≤ 'z') || ('0' ≤ c && c ≤ '9') ||
    c = '-' || c = '_'

/-- The credentials `deriveCredentials` returns on a 32-byte fingerprint. -/
def credsOf (f : Bytes) : IceCredentials :=
  { ufrag := base64urlEncode (hkdfDerive f [] HKDF_INFO_UFRAG HKDF_UFRAG_LENGTH)
    pwd := base64urlEncode (hkdfDerive f [] HKDF_INFO_PWD HKDF_PWD_LENGTH) }

/-- The canonically ordered 64-byte concatenation `generateSAS` hashes:
the fingerprint compared greater-or-equal comes first. -/
def sasCombined (a b : Bytes) : Bytes :=
  if 0 ≤ compareFingerprints a b then a ++ b else b ++ a

/-! ## Concrete test vectors used in the witnesses and counterexamples -/

/-- The fingerprint of the specification's concrete scenario. -/
def fpSpec : Bytes :=
  [0xE7, 0x3B, 0x38, 0x46, 0x1A, 0x5D, 0x88, 0xB0, 0xC4, 0x2E, 0x9F, 0x7A,
   0x1D, 0x6C, 0x3E, 0x8B, 0x5F, 0x4A, 0x9D, 0x2C, 0x7E, 0x1B, 0x6F, 0x3A,
   0x8D, 0x5C, 0x2E, 0x9B, 0x4F, 0x7A, 0x1C, 0x3D]

/-- `192.168.1.5:54321/udp`, host. -/
def candIPv4Host : QWBPCandidate :=
  { ip := "192.168.1.5".data, port := 54321, type := CandType.host
    protocol := Proto.udp, tcpType := none }

/-- The same candidate with its IPv4 address written with leading zeros
(accepted by `encode`, normalized away by `decode`). -/
def candNoncanon : QWBPCandidate :=
  { ip := "192.168.001.005".data, port := 54321, type := CandType.host
    protocol := Proto.udp, tcpType := none }

/-- The expected 41 bytes of the specification's concrete scenario. -/
def packetSpec : Bytes :=
  0x51 :: 0x00 :: fpSpec ++ [0x00, 0xC0, 0xA8, 0x01, 0x05, 0xD4, 0x31]

/-- A server-reflexive udp candidate. -/
def candSrflx : QWBPCandidate :=
  { ip := "203.0.113.50".data, port := 54324, type := CandType.srflx
    protocol := Proto.udp, tcpType := none }

/-- A server-reflexive tcp candidate with a subtype. -/
def candSrflxTcp : QWBPCandidate :=
  { ip := "203.0.113.50".data, port := 54324, type := CandType.srflx
    protocol := Proto.tcp, tcpType := some TcpKind.so }

/-- An IPv6 tcp candidate in the decoder's canonical spelling. -/
def candIPv6 : QWBPCandidate :=
  { ip := "2001:db8::1".data, port := 443, type := CandType.srflx
    protocol := Proto.tcp, tcpType := some TcpKind.active }

/-- An mDNS host candidate in the decoder's canonical spelling. -/
def candMdns : QWBPCandidate :=
  { ip := "a1b2c3d4-e5f6-7890-abcd-ef0123456789.local".data, port := 5000
    type := CandType.host, protocol := Proto.udp, tcpType := none }

/-- A session in `Displaying` with local fingerprint `fpSpec`, before any
scan. -/
def connDisplay : ConnState :=
  { state := ConnectionState.displaying
    localFingerprint := some fpSpec
    localCredentials := none
    localCandidates := []
    remoteInfo := none
    role := none }

/-- A fingerprint that is `0x00` everywhere except byte 7, which is
`0x34`. -/
def fpByte7High : Bytes :=
  List.replicate 7 0x00 ++ 0x34 :: List.replicate 24 0x00

/-- The same fingerprint with byte 7 equal to `0x33`. -/
def fpByte7Low : Bytes :=
  List.replicate 7 0x00 ++ 0x33 :: List.replicate 24 0x00

/-!
# Theorems
-/

/-- C9: encoding the fingerprint `E7 3B 38 46 … 1C 3D` with the single
candidate `{192.168.1.5, 54321, host, udp}` yields exactly the 41 bytes
`51 00`, the 32 fingerprint bytes, and `00 C0 A8 01 05 D4 31`. -/
theorem encode_concrete_scenario :
    encode fpSpec [candIPv4Host] = .ok packetSpec ∧ packetSpec.length = 41 := by
  constructor
  · decide
  · decide

/-- C4 (evaluating the code at the failing input): for the
server-reflexive candidate `203.0.113.50:54324/udp`,
`buildCandidateString` appends the candidate's actual address and port as
`raddr`/`rport` and not the `raddr 0.0.0.0 rport 9` placeholder the
specification mandates; the tcp-subtype token is appended for a tcp
candidate with a subtype. -/
theorem buildCandidateString_raddr_actual :
    containsSub " raddr 203.0.113.50 rport 54324".data (buildCandidateString candSrflx) = true ∧
    containsSub " raddr 0.0.0.0 rport 9".data (buildCandidateString candSrflx) = false ∧
    containsSub " tcptype so".data (buildCandidateString candSrflxTcp) = true := by
  refine ⟨by decide, by decide, by decide⟩

/-- The comparison loop returns 0 on equal inputs. -/
theorem cfAux_self (l : Bytes) : cfAux l l = 0 := by
  induction l with
  | nil => rfl
  | cons x xs ih => simp [cfAux, ih]

/-- `compareFingerprints` returns 0 on equal inputs. -/
theorem compareFingerprints_self (f : Bytes) : compareFingerprints f f = 0 := by
  simp [compareFingerprints, cfAux_self]

/-- C3 counterexample: a session in `Displaying` with local fingerprint
`fpSpec` that scans its own payload raises the self-connection error and
leaves state and role unchanged, but peer info IS recorded, contrary to
the claim's "no peer info is recorded". -/
theorem processScannedPayload_self_records_peer :
    (processScannedPayload connDisplay packetSpec).2 = .error ConnErr.selfConnection ∧
    (processScannedPayload connDisplay packetSpec).1.remoteInfo.isSome = true ∧
    (processScannedPayload connDisplay packetSpec).1.state = ConnectionState.displaying ∧
    (processScannedPayload connDisplay packetSpec).1.role = none := by
  refine ⟨by decide, by decide, by decide, by decide⟩

/-- C3 (amended): in `Displaying` or `ScannedOne` with no peer yet
recorded, processing a valid packet whose fingerprint is byte-equal to the
32-byte local fingerprint raises the self-connection error, leaves the
connection state and the role unchanged — but records the peer info
(fingerprint, candidates and derived credentials) before the self check,
so a subsequent call fails with the peer-already-scanned error instead. -/
theorem processScannedPayload_self (conn : ConnState) (data : Bytes)
    (f : Bytes) (p : QWBPPacket)
    (hst : conn.state = ConnectionState.displaying ∨ conn.state = ConnectionState.scannedOne)
    (hrem : conn.remoteInfo = none)
    (hlf : conn.localFingerprint = some f)
    (hlen : f.length = 32)
    (hvalid : isValidPacket data = true)
    (hdec : decode data = .ok p)
    (hfp : p.fingerprint = f) :
    (processScannedPayload conn data).2 = .error ConnErr.selfConnection ∧
    (processScannedPayload conn data).1.state = conn.state ∧
    (processScannedPayload conn data).1.role = conn.role ∧
    (∃ creds, deriveCredentials f = .ok creds ∧
      (processScannedPayload conn data).1.remoteInfo =
        some { fingerprint := p.fingerprint, candidates := p.candidates
               credentials := creds }) ∧
    (processScannedPayload (processScannedPayload conn data).1 data).2 =
      .error (ConnErr.peerAlreadyScanned conn.state) := by
  have hcred : deriveCredentials f = .ok (credsOf f) := by
    simp [deriveCredentials, credsOf, hlen]
  have hstate : ¬(conn.state ≠ ConnectionState.displaying ∧
      conn.state ≠ ConnectionState.scannedOne) := by
    rcases hst with h | h <;> simp [h]
  have hself : compareFingerprints f p.fingerprint = 0 := by
    rw [hfp]
    exact compareFingerprints_self f
  have hmain : processScannedPayload conn data =
      ({ conn with remoteInfo := some ⟨p.fingerprint, p.candidates, credsOf f⟩ },
        .error ConnErr.selfConnection) := by
    rw [processScannedPayload]
    rw [if_neg hstate]
    simp only [hrem, Option.isSome_none, Bool.false_eq_true, if_false, hvalid,
      Bool.not_true, hdec, hlf, hfp, hcred, hself, compareFingerprints_self,
      beq_self_eq_true, if_true]
  refine ⟨by rw [hmain], by rw [hmain], by rw [hmain],
    ⟨_, hcred, by rw [hmain]⟩, ?_⟩
  rw [hmain]
  rw [processScannedPayload]
  rw [if_neg (by simpa using hstate)]
  simp

/-- Witness for the amended C3 theorem: the session `connDisplay` scanning
the payload that encodes its own fingerprint `fpSpec`. -/
theorem processScannedPayload_self_witness :
    (processScannedPayload connDisplay packetSpec).2 = .error ConnErr.selfConnection ∧
    (processScannedPayload connDisplay packetSpec).1.state = connDisplay.state ∧
    (processScannedPayload connDisplay packetSpec).1.role = connDisplay.role ∧
    (∃ creds, deriveCredentials fpSpec = .ok creds ∧
      (processScannedPayload connDisplay packetSpec).1.remoteInfo =
        some ⟨fpSpec, [candIPv4Host], creds⟩) ∧
    (processScannedPayload (processScannedPayload connDisplay packetSpec).1 packetSpec).2 =
      .error (ConnErr.peerAlreadyScanned connDisplay.state) :=
  processScannedPayload_self connDisplay packetSpec fpSpec ⟨0, fpSpec, [candIPv4Host]⟩
    (Or.inl rfl) rfl rfl (by decide) (by decide) (by decide) rfl

/-- C1 counterexample: the claim's round trip fails as stated.  The
address `192.168.001.005` is accepted by `encode` (each octet is a valid
decimal in `0..255`), but `decode` renders the bytes back without the
leading zeros, so the decoded candidate list differs from the input; and
the empty candidate list is accepted by `encode` but its 34-byte output is
rejected by `decode` as too short. -/
theorem decode_encode_not_identity :
    encode fpSpec [candNoncanon] = .ok packetSpec ∧
    decode packetSpec = .ok ⟨0, fpSpec, [candIPv4Host]⟩ ∧
    candIPv4Host ≠ candNoncanon ∧
    encode fpSpec [] = .ok (0x51 :: 0x00 :: fpSpec) ∧
    decode (0x51 :: 0x00 :: fpSpec) = .error (DecErr.tooShort 34) := by
  refine ⟨by decide, by decide, by decide, by decide, by decide⟩

@[simp]
theorem isOk_ok {ε α : Type} (a : α) : (Except.ok a : Except ε α).isOk = true := rfl

@[simp]
theorem isOk_error {ε α : Type} (e : ε) : (Except.error e : Except ε α).isOk = false := rfl

/-- `Except.isOk` of a `mapExcept` is the conjunction of the elementwise
`isOk`s. -/
theorem mapExcept_isOk {ε α β : Type} (f : α → Except ε β) (l : List α) :
    (mapExcept f l).isOk = true ↔ ∀ a ∈ l, (f a).isOk = true := by
  induction l with
  | nil => simp [mapExcept]
  | cons x xs ih =>
      cases hx : f x with
      | error e =>
          simp only [mapExcept, hx, isOk_error]
          constructor
          · intro h
            exact absurd h (by simp)
          · intro h
            have hxx := h x (List.mem_cons_self x xs)
            rw [hx, isOk_error] at hxx
            exact absurd hxx (by simp)
      | ok b =>
          cases hxs : mapExcept f xs with
          | error e =>
              rw [hxs] at ih
              simp only [mapExcept, hx, hxs, isOk_error]
              constructor
              · intro h
                exact absurd h (by simp)
              · intro h
                have : (false : Bool) = true :=
                  isOk_error e ▸ ih.mpr (fun a ha => h a (List.mem_cons_of_mem x ha))
                exact absurd this (by simp)
          | ok bs =>
              rw [hxs] at ih
              simp only [mapExcept, hx, hxs, isOk_ok]
              constructor
              · intro _ a ha
                rcases List.mem_cons.mp ha with rfl | ha2
                · rw [hx]
                  rfl
                · exact ih.mp rfl a ha2
              · intro _
                trivial

/-- A candidate record encodes successfully exactly when its address
passes the family-specific validation. -/
theorem encodeCandidate_isOk (c : QWBPCandidate) :
    (encodeCandidate c).isOk = (addrParse c.ip).isOk := by
  unfold encodeCandidate addrParse
  cases hm : isMdns c.ip
  · cases h6 : isIPv6 c.ip
    · simp only [Bool.not_false, Bool.true_and, hm, h6, if_false]
      cases parseIPv4 c.ip <;> rfl
    · simp only [Bool.not_false, Bool.true_and, hm, h6, if_true, if_false]
      cases parseIPv6 c.ip <;> rfl
  · simp only [Bool.not_true, Bool.false_and, hm, if_true]
    cases parseMdnsUUID c.ip <;> rfl

/-- C5: `encode` succeeds exactly when the fingerprint is 32 bytes long
and every candidate's address passes its family-specific validation
(`parseIPv4` / `parseIPv6` / `parseMdnsUUID`, dispatched as
`encodeCandidate` does); on every other input it raises an encode
error. -/
theorem encode_ok_iff (fp : Bytes) (cs : List QWBPCandidate) :
    (encode fp cs).isOk = true ↔
      (fp.length = 32 ∧ ∀ c ∈ cs, (addrParse c.ip).isOk = true) := by
  have hiff : ∀ c ∈ cs, ((encodeCandidate c).isOk = true ↔ (addrParse c.ip).isOk = true) :=
    fun c _ => by rw [encodeCandidate_isOk]
  unfold encode
  by_cases hfp : fp.length = FINGERPRINT_SIZE
  · rw [if_neg (by simp [hfp])]
    cases hcs : mapExcept encodeCandidate cs with
    | error e =>
        simp only [hcs, bind, Except.bind, isOk_error]
        constructor
        · intro h
          simp [pure, Except.pure] at h
        · rintro ⟨-, h⟩
          have hall : ∀ c ∈ cs, (encodeCandidate c).isOk = true :=
            fun c hc => (hiff c hc).mpr (h c hc)
          have hok := (mapExcept_isOk encodeCandidate cs).mpr hall
          rw [hcs, isOk_error] at hok
          simp [pure, Except.pure]
          exact absurd hok (by simp)
    | ok recs =>
        have hall := (mapExcept_isOk encodeCandidate cs).mp (by rw [hcs]; rfl)
        simp only [hcs, bind, Except.bind, pure, Except.pure, isOk_ok]
        constructor
        · intro _
          exact ⟨hfp, fun c hc => (hiff c hc).mp (hall c hc)⟩
        · intro _
          simp [pure, Except.pure]
  · rw [if_pos (by simp [hfp])]
    constructor
    · intro h
      exact absurd h (by simp [throw, throwThe, MonadExceptOf.throw, bind, Except.bind])
    · rintro ⟨h, -⟩
      exact absurd (show fp.length = FINGERPRINT_SIZE from h) hfp

/-- Witness for C5: a fingerprint of 32 zero bytes with one candidate of
each address family encodes successfully. -/
theorem encode_ok_iff_witness :
    (encode (List.replicate 32 0) [candIPv4Host, candIPv6, candMdns]).isOk = true :=
  (encode_ok_iff (List.replicate 32 0) [candIPv4Host, candIPv6, candMdns]).mpr
    ⟨by decide, by decide⟩

/-- `finishCandidate` succeeds and reads exactly the declared extent as
soon as the port bytes are in range. -/
theorem finishCandidate_ok {flags : Nat} {rest : Bytes} {len : Nat} {ip : Str}
    (h : len + 2 ≤ rest.length) :
    ∃ c, finishCandidate flags rest len ip = .ok (c, 1 + len + 2) := by
  unfold finishCandidate
  obtain ⟨hi, hhi⟩ : ∃ b, rest.get? len = some b := by
    rw [List.get?_eq_get (by omega)]
    exact ⟨_, rfl⟩
  obtain ⟨lo, hlo⟩ : ∃ b, rest.get? (len + 1) = some b := by
    rw [List.get?_eq_get (by omega)]
    exact ⟨_, rfl⟩
  rw [hhi, hlo]
  exact ⟨_, rfl⟩

/-- One-step analysis of `decodeCandidate`, by the record's 2-bit address
family: family `0b11` is rejected, a record whose declared extent (7 or 19
bytes) overruns the input is a truncation error, and otherwise the record
decodes reading exactly its declared extent.  In no case is the `oob`
marker produced. -/
theorem decodeCandidate_step (flags : Nat) (rest : Bytes) :
    (flags &&& 0b11 = 3 →
      decodeCandidate (flags :: rest) = .error (DecErr.unknownFamily (flags &&& 0b11))) ∧
    (flags &&& 0b11 ≠ 3 →
      ((flags :: rest).length < (if flags &&& 0b11 = 0 then 7 else 19) →
        (decodeCandidate (flags :: rest)).isOk = false ∧
          decodeCandidate (flags :: rest) ≠ .error DecErr.oob) ∧
      ((if flags &&& 0b11 = 0 then 7 else 19) ≤ (flags :: rest).length →
        ∃ c, decodeCandidate (flags :: rest) =
          .ok (c, if flags &&& 0b11 = 0 then 7 else 19))) := by
  have hle : flags &&& 0b11 ≤ 3 := Nat.and_le_right
  interval_cases h : flags &&& 0b11
  · -- family 0 (IPv4)
    refine ⟨by omega, fun _ => ⟨?_, ?_⟩⟩
    · intro hlen
      have hlen2 : rest.length + 1 < 7 := by simpa using hlen
      simp only [decodeCandidate, h]
      split
      · exact ⟨rfl, by simp⟩
      · rename_i hcond
        exfalso
        simp only [List.length_cons, Nat.not_lt, ge_iff_le, gt_iff_lt] at hcond
        omega
    · intro hlen
      have hlen2 : 7 ≤ rest.length + 1 := by simpa using hlen
      simp only [decodeCandidate, h]
      split
      · rename_i hcond
        exfalso
        simp only [List.length_cons, gt_iff_lt] at hcond
        omega
      · obtain ⟨c, hc⟩ :=
          @finishCandidate_ok flags rest 4 (formatIPv4 (rest.take 4)) (by omega)
        refine ⟨c, ?_⟩
        rw [hc]
        simp
  · -- family 1 (IPv6)
    refine ⟨by omega, fun _ => ⟨?_, ?_⟩⟩
    · intro hlen
      have hlen2 : rest.length + 1 < 19 := by simpa using hlen
      simp only [decodeCandidate, h]
      split
      · exact ⟨rfl, by simp⟩
      · rename_i hcond
        exfalso
        simp only [List.length_cons, Nat.not_lt, ge_iff_le, gt_iff_lt] at hcond
        omega
    · intro hlen
      have hlen2 : 19 ≤ rest.length + 1 := by simpa using hlen
      simp only [decodeCandidate, h]
      split
      · rename_i hcond
        exfalso
        simp only [List.length_cons, gt_iff_lt] at hcond
        omega
      · obtain ⟨c, hc⟩ :=
          @finishCandidate_ok flags rest 16 (formatIPv6 (rest.take 16)) (by omega)
        refine ⟨c, ?_⟩
        rw [hc]
        simp
  · -- family 2 (mDNS)
    refine ⟨by omega, fun _ => ⟨?_, ?_⟩⟩
    · intro hlen
      have hlen2 : rest.length + 1 < 19 := by simpa using hlen
      simp only [decodeCandidate, h]
      split
      · exact ⟨rfl, by simp⟩
      · rename_i hcond
        exfalso
        simp only [List.length_cons, Nat.not_lt, ge_iff_le, gt_iff_lt] at hcond
        omega
    · intro hlen
      have hlen2 : 19 ≤ rest.length + 1 := by simpa using hlen
      simp only [decodeCandidate, h]
      split
      · rename_i hcond
        exfalso
        simp only [List.length_cons, gt_iff_lt] at hcond
        omega
      · obtain ⟨c, hc⟩ :=
          @finishCandidate_ok flags rest 16 (formatMdns (rest.take 16)) (by omega)
        refine ⟨c, ?_⟩
        rw [hc]
        simp
  · -- family 3 (reserved)
    refine ⟨fun _ => ?_, by omega⟩
    simp [decodeCandidate, h]

/-- One step of the claim-side region walk on a record with a valid
family. -/
theorem candRegionOkGo_cons (fuel flags : Nat) (rest : Bytes)
    (hfam : flags &&& 0b11 ≠ 3) :
    candRegionOkGo (fuel + 1) (flags :: rest) =
      (if rest.length + 1 < (if flags &&& 0b11 = 0 then 7 else 19) then false
       else candRegionOkGo fuel
         (rest.drop ((if flags &&& 0b11 = 0 then 7 else 19) - 1))) := by
  simp only [candRegionOkGo]
  rw [if_neg hfam]

/-- The claim-side region walk rejects a record with family `0b11`. -/
theorem candRegionOkGo_cons_fam3 (fuel flags : Nat) (rest : Bytes)
    (hfam : flags &&& 0b11 = 3) :
    candRegionOkGo (fuel + 1) (flags :: rest) = false := by
  simp only [candRegionOkGo]
  rw [if_pos hfam]

/-- The candidate loop: success coincides with the claim-side region walk,
the `oob` marker is never produced, and each decoded candidate consumed at
least 7 input bytes. -/
theorem decodeCandsGo_spec :
    ∀ (fuel : Nat) (s : Bytes), s.length < fuel →
      ((decodeCandsGo fuel s).isOk = candRegionOkGo fuel s ∧
       decodeCandsGo fuel s ≠ .error DecErr.oob ∧
       ∀ cs, decodeCandsGo fuel s = .ok cs → 7 * cs.length ≤ s.length) := by
  intro fuel
  induction fuel with
  | zero =>
      intro s hs
      exact absurd hs (by omega)
  | succ fuel ih =>
      intro s hs
      by_cases hnil : s = []
      · subst hnil
        have hnilgo : decodeCandsGo (fuel + 1) ([] : Bytes) = .ok [] := rfl
        refine ⟨rfl, by rw [hnilgo]; simp, ?_⟩
        intro cs hcs
        rw [hnilgo] at hcs
        simp only [Except.ok.injEq] at hcs
        subst hcs
        simp
      · obtain ⟨flags, rest, rfl⟩ : ∃ a l, s = a :: l := by
          cases s with
          | nil => exact absurd rfl hnil
          | cons a l => exact ⟨a, l, rfl⟩
        have hstep := decodeCandidate_step flags rest
        have hgo : decodeCandsGo (fuel + 1) (flags :: rest) =
            match decodeCandidate (flags :: rest) with
            | .error e => .error e
            | .ok (c, n) =>
                match decodeCandsGo fuel ((flags :: rest).drop n) with
                | .error e => .error e
                | .ok cs => .ok (c :: cs) := by
          simp [decodeCandsGo, hnil]
        by_cases hfam : flags &&& 0b11 = 3
        · rw [hgo, hstep.1 hfam]
          refine ⟨?_, by simp, by simp⟩
          rw [candRegionOkGo_cons_fam3 fuel flags rest hfam]
          rfl
        · set recLen := (if flags &&& 0b11 = 0 then 7 else 19) with hrec
          have h7 : 7 ≤ recLen := by
            rw [hrec]
            split <;> omega
          have hreg0 := candRegionOkGo_cons fuel flags rest hfam
          rw [← hrec] at hreg0
          by_cases hlen : (flags :: rest).length < recLen
          · -- truncated record
            obtain ⟨hok, hoob⟩ := (hstep.2 hfam).1 hlen
            have hreg : candRegionOkGo (fuel + 1) (flags :: rest) = false := by
              rw [hreg0, if_pos (by simpa using hlen)]
            cases hdc : decodeCandidate (flags :: rest) with
            | ok v =>
                rw [hdc] at hok
                simp at hok
            | error e =>
                rw [hdc] at hoob
                rw [hgo, hdc, hreg]
                refine ⟨rfl, ?_, ?_⟩
                · intro he
                  have he2 : (Except.error e : Except DecErr (List QWBPCandidate)) =
                      .error DecErr.oob := he
                  injection he2 with h1
                  exact hoob (by rw [h1])
                · intro cs hcs
                  have hcs2 : (Except.error e : Except DecErr (List QWBPCandidate)) =
                      .ok cs := hcs
                  exact absurd hcs2 (by simp)
          · -- intact record
            obtain ⟨c, hc⟩ := (hstep.2 hfam).2 (Nat.not_lt.mp hlen)
            have hlen3 : recLen ≤ rest.length + 1 := by
              simpa using Nat.not_lt.mp hlen
            have hdrop : (flags :: rest).drop recLen = rest.drop (recLen - 1) := by
              have hshape : recLen = (recLen - 1) + 1 := by omega
              conv_lhs => rw [hshape]
              rw [List.drop_succ_cons]
            have hlen2 : (rest.drop (recLen - 1)).length < fuel := by
              rw [List.length_drop]
              have hs2 : rest.length + 1 < fuel + 1 := by simpa using hs
              omega
            have hreg : candRegionOkGo (fuel + 1) (flags :: rest) =
                candRegionOkGo fuel (rest.drop (recLen - 1)) := by
              rw [hreg0, if_neg (by omega)]
            obtain ⟨ihok, ihoob, ihlen⟩ := ih (rest.drop (recLen - 1)) hlen2
            have hgo2 : decodeCandsGo (fuel + 1) (flags :: rest) =
                match decodeCandsGo fuel (rest.drop (recLen - 1)) with
                | .error e => .error e
                | .ok cs => .ok (c :: cs) := by
              rw [hgo, hc]
              show (match decodeCandsGo fuel (List.drop recLen (flags :: rest)) with
                    | Except.error e => Except.error e
                    | Except.ok cs => Except.ok (c :: cs)) =
                  match decodeCandsGo fuel (rest.drop (recLen - 1)) with
                  | Except.error e => Except.error e
                  | Except.ok cs => Except.ok (c :: cs)
              rw [hdrop]
            rw [hgo2, hreg]
            cases hrc : decodeCandsGo fuel (rest.drop (recLen - 1)) with
            | error e =>
                rw [hrc] at ihok ihoob
                refine ⟨ihok, ?_, ?_⟩
                · intro he
                  have he2 : (Except.error e : Except DecErr (List QWBPCandidate)) =
                      .error DecErr.oob := he
                  injection he2 with h1
                  exact ihoob (by rw [h1])
                · intro cs hcs
                  have hcs2 : (Except.error e : Except DecErr (List QWBPCandidate)) =
                      .ok cs := hcs
                  exact absurd hcs2 (by simp)
            | ok cs2 =>
                rw [hrc] at ihok ihlen
                refine ⟨ihok, ?_, ?_⟩
                · intro he
                  have he2 : (Except.ok (c :: cs2) : Except DecErr (List QWBPCandidate)) =
                      .error DecErr.oob := he
                  exact absurd he2 (by simp)
                · intro cs hcs
                  have hcs2 : (Except.ok (c :: cs2) : Except DecErr (List QWBPCandidate)) =
                      .ok cs := hcs
                  simp only [Except.ok.injEq] at hcs2
                  subst hcs2
                  have hb := ihlen cs2 rfl
                  rw [List.length_drop] at hb
                  simp only [List.length_cons]
                  omega

/-- C2: `decode` returns a packet exactly when the input is at least 41
bytes, byte 0 is `0x51`, the version bits (bits 0-2 of byte 1) are zero,
and the candidate region from offset 34 walks cleanly (no record with
address family `0b11`, no record whose declared 7- or 19-byte extent
overruns the input); on every other input it raises a `QWBPDecodeError`. -/
theorem decode_ok_iff (data : Bytes) :
    (decode data).isOk = true ↔
      (41 ≤ data.length ∧ data.getD 0 0 = 0x51 ∧ (data.getD 1 0) &&& 0b111 = 0 ∧
        candRegionOk (data.drop 34) = true) := by
  unfold decode
  by_cases hlen : data.length < MIN_PACKET_SIZE
  · rw [if_pos hlen]
    simp only [isOk_error, Bool.false_eq_true, false_iff]
    rintro ⟨h41, -⟩
    simp only [MIN_PACKET_SIZE, HEADER_SIZE, FINGERPRINT_SIZE] at hlen
    omega
  · rw [if_neg hlen]
    have h41 : 41 ≤ data.length := by
      simp only [MIN_PACKET_SIZE, HEADER_SIZE, FINGERPRINT_SIZE, Nat.not_lt] at hlen
      omega
    obtain ⟨b0, hb0⟩ : ∃ b, data.get? 0 = some b := by
      rw [List.get?_eq_get (by omega)]
      exact ⟨_, rfl⟩
    have hgd0 : data.getD 0 0 = b0 := by
      rw [List.getD_eq_get?, hb0]
      rfl
    simp only [hb0]
    by_cases hmagic : b0 = MAGIC_BYTE
    · rw [if_neg (by simp [hmagic])]
      obtain ⟨b1, hb1⟩ : ∃ b, data.get? 1 = some b := by
        rw [List.get?_eq_get (by omega)]
        exact ⟨_, rfl⟩
      have hgd1 : data.getD 1 0 = b1 := by
        rw [List.getD_eq_get?, hb1]
        rfl
      simp only [hb1]
      by_cases hver : b1 &&& 0b111 = 0
      · rw [if_neg (by simp [hver])]
        obtain ⟨hok, -, -⟩ := decodeCandsGo_spec
          ((data.drop (HEADER_SIZE + FINGERPRINT_SIZE)).length + 1)
          (data.drop (HEADER_SIZE + FINGERPRINT_SIZE)) (by omega)
        have hcands : (decodeCands (data.drop (HEADER_SIZE + FINGERPRINT_SIZE))).isOk =
            candRegionOk (data.drop 34) := hok
        cases hdc : decodeCands (data.drop (HEADER_SIZE + FINGERPRINT_SIZE)) with
        | error e =>
            rw [hdc] at hcands
            simp only [isOk_error, Bool.false_eq_true, false_iff]
            rintro ⟨-, -, -, hregion⟩
            rw [hregion] at hcands
            exact absurd hcands.symm (by simp)
        | ok cs =>
            rw [hdc] at hcands
            simp only [isOk_ok, true_iff]
            exact ⟨h41, by rw [hgd0, hmagic]; rfl, by rw [hgd1]; exact hver, hcands.symm⟩
      · rw [if_pos (by simp [hver])]
        simp only [isOk_error, Bool.false_eq_true, false_iff]
        rintro ⟨-, -, hv, -⟩
        rw [hgd1] at hv
        exact hver hv
    · rw [if_pos (by simp [hmagic])]
      simp only [isOk_error, Bool.false_eq_true, false_iff]
      rintro ⟨-, hm, -⟩
      rw [hgd0] at hm
      exact hmagic (by rw [hm]; rfl)

/-- Witness for C2: the empty input is rejected (it is shorter than 41
bytes), via the theorem's backward direction. -/
theorem decode_ok_iff_witness : ((decode []).isOk = true) = False := by
  rw [decode_ok_iff]
  simp

/-- C10: `decode` is total and memory safe on arbitrary byte sequences:
it never performs an out-of-bounds read (the `oob` marker, standing for a
`Uint8Array` access past the end, is unreachable — each record's declared
extent is bounds-checked before its address and port bytes are read), and
every accepted record advances the parse offset by at least 7 bytes, so a
returned packet has at most `(length - 34) / 7` candidates. -/
theorem decode_total (data : Bytes) :
    decode data ≠ .error DecErr.oob ∧
    ∀ p, decode data = .ok p → 34 + 7 * p.candidates.length ≤ data.length := by
  unfold decode
  by_cases hlen : data.length < MIN_PACKET_SIZE
  · rw [if_pos hlen]
    exact ⟨by simp, fun p hp => absurd hp (by simp)⟩
  · rw [if_neg hlen]
    have h41 : 41 ≤ data.length := by
      simp only [MIN_PACKET_SIZE, HEADER_SIZE, FINGERPRINT_SIZE, Nat.not_lt] at hlen
      omega
    obtain ⟨b0, hb0⟩ : ∃ b, data.get? 0 = some b := by
      rw [List.get?_eq_get (by omega)]
      exact ⟨_, rfl⟩
    simp only [hb0]
    by_cases hmagic : b0 = MAGIC_BYTE
    · rw [if_neg (by simp [hmagic])]
      obtain ⟨b1, hb1⟩ : ∃ b, data.get? 1 = some b := by
        rw [List.get?_eq_get (by omega)]
        exact ⟨_, rfl⟩
      simp only [hb1]
      by_cases hver : b1 &&& 0b111 = 0
      · rw [if_neg (by simp [hver])]
        obtain ⟨-, hoob, hlenb⟩ := decodeCandsGo_spec
          ((data.drop (HEADER_SIZE + FINGERPRINT_SIZE)).length + 1)
          (data.drop (HEADER_SIZE + FINGERPRINT_SIZE)) (by omega)
        have hoob2 : decodeCands (data.drop (HEADER_SIZE + FINGERPRINT_SIZE)) ≠
            .error DecErr.oob := hoob
        have hlenb2 : ∀ cs, decodeCands (data.drop (HEADER_SIZE + FINGERPRINT_SIZE)) =
            .ok cs → 7 * cs.length ≤ (data.drop (HEADER_SIZE + FINGERPRINT_SIZE)).length :=
          hlenb
        cases hdc : decodeCands (data.drop (HEADER_SIZE + FINGERPRINT_SIZE)) with
        | error e =>
            refine ⟨?_, fun p hp => absurd hp (by simp)⟩
            intro he
            injection he with h1
            rw [hdc] at hoob2
            exact hoob2 (by rw [h1])
        | ok cs =>
            refine ⟨by simp, ?_⟩
            intro p hp
            simp only [Except.ok.injEq] at hp
            have hcount := hlenb2 cs hdc
            rw [List.length_drop] at hcount
            have hcand : p.candidates = cs := by
              rw [← hp]
            rw [hcand]
            simp only [HEADER_SIZE, FINGERPRINT_SIZE] at hcount
            omega
      · rw [if_pos (by simp [hver])]
        exact ⟨by simp, fun p hp => absurd hp (by simp)⟩
    · rw [if_pos (by simp [hmagic])]
      exact ⟨by simp, fun p hp => absurd hp (by simp)⟩

/-- Witness for C10: the minimal concrete packet decodes to one candidate
and satisfies the advancement bound. -/
theorem decode_total_witness :
    decode packetSpec ≠ .error DecErr.oob ∧ 34 + 7 * 1 ≤ packetSpec.length :=
  ⟨(decode_total packetSpec).1,
    (decode_total packetSpec).2 ⟨0, fpSpec, [candIPv4Host]⟩ (by decide)⟩

/-- The comparison loop is antisymmetric on all inputs. -/
theorem cfAux_neg : ∀ (a b : Bytes), cfAux b a = -cfAux a b := by
  intro a
  induction a with
  | nil =>
      intro b
      cases b <;> simp [cfAux]
  | cons x xs ih =>
      intro b
      cases b with
      | nil => simp [cfAux]
      | cons y ys =>
          simp only [cfAux]
          split_ifs <;> first | rfl | omega | exact ih ys

/-- The comparison loop returns only -1, 0 or 1. -/
theorem cfAux_tri : ∀ (a b : Bytes),
    cfAux a b = 1 ∨ cfAux a b = -1 ∨ cfAux a b = 0 := by
  intro a
  induction a with
  | nil =>
      intro b
      cases b <;> simp [cfAux]
  | cons x xs ih =>
      intro b
      cases b with
      | nil => simp [cfAux]
      | cons y ys =>
          simp only [cfAux]
          split_ifs <;> first | simp | exact ih ys

/-- On equal-length inputs, the comparison loop returns 0 exactly for
equal lists. -/
theorem cfAux_eq_zero : ∀ (a b : Bytes), a.length = b.length →
    (cfAux a b = 0 ↔ a = b) := by
  intro a
  induction a with
  | nil =>
      intro b hb
      cases b with
      | nil => simp [cfAux]
      | cons y ys => simp at hb
  | cons x xs ih =>
      intro b hb
      cases b with
      | nil => simp at hb
      | cons y ys =>
          simp only [List.length_cons] at hb
          simp only [cfAux]
          split_ifs with h1 h2
          · refine iff_of_false (by norm_num) ?_
            intro hc
            injection hc with hxy hrest
            omega
          · refine iff_of_false (by norm_num) ?_
            intro hc
            injection hc with hxy hrest
            omega
          · have hxy : x = y := by omega
            subst hxy
            rw [ih ys (by omega)]
            simp

/-- The comparison loop is transitive in its positive result. -/
theorem cfAux_trans : ∀ (a b c : Bytes),
    cfAux a b = 1 → cfAux b c = 1 → cfAux a c = 1 := by
  intro a
  induction a with
  | nil =>
      intro b c hab
      cases b <;> simp [cfAux] at hab
  | cons x xs ih =>
      intro b c hab hbc
      cases b with
      | nil => simp [cfAux] at hab
      | cons y ys =>
          cases c with
          | nil => simp [cfAux] at hbc
          | cons z zs =>
              simp only [cfAux] at hab hbc ⊢
              split_ifs at hab hbc ⊢ with h1 h2 h3 h4 h5 h6 <;>
                first
                  | rfl
                  | omega
                  | (exact absurd hab (by simp))
                  | (exact absurd hbc (by simp))
                  | (exact ih ys zs hab hbc)

/-- On equal-length inputs the loop returns 1 exactly when the first
differing byte is larger on the left. -/
theorem cfAux_eq_one : ∀ (a b : Bytes), a.length = b.length →
    (cfAux a b = 1 ↔
      ∃ i, i < a.length ∧ b.getD i 0 < a.getD i 0 ∧
        ∀ j, j < i → a.getD j 0 = b.getD j 0) := by
  intro a
  induction a with
  | nil =>
      intro b hb
      cases b with
      | nil => simp [cfAux]
      | cons y ys => simp at hb
  | cons x xs ih =>
      intro b hb
      cases b with
      | nil => simp at hb
      | cons y ys =>
          simp only [List.length_cons] at hb
          simp only [cfAux, List.length_cons]
          split_ifs with h1 h2
          · -- x > y: 1 = 1, witness index 0
            constructor
            · intro _
              exact ⟨0, by omega, by simpa using h1, by omega⟩
            · intro _
              rfl
          · -- x < y: -1 = 1 impossible, and no witness exists
            constructor
            · intro hc
              exact absurd hc (by simp)
            · rintro ⟨i, -, hlt, hpre⟩
              rcases Nat.eq_zero_or_pos i with rfl | hi
              · simp only [List.getD_cons_zero] at hlt
                omega
              · have := hpre 0 hi
                simp only [List.getD_cons_zero] at this
                omega
          · -- x = y: shift indices by one
            have hxy : x = y := by omega
            subst hxy
            rw [ih ys (by omega)]
            constructor
            · rintro ⟨i, hi, hlt, hpre⟩
              refine ⟨i + 1, by omega, ?_, ?_⟩
              · simpa [List.getD_cons_succ] using hlt
              · intro j hj
                rcases Nat.eq_zero_or_pos j with rfl | hjpos
                · simp [List.getD_cons_zero]
                · obtain ⟨j2, rfl⟩ : ∃ j2, j = j2 + 1 := ⟨j - 1, by omega⟩
                  simpa [List.getD_cons_succ] using hpre j2 (by omega)
            · rintro ⟨i, hi, hlt, hpre⟩
              rcases Nat.eq_zero_or_pos i with rfl | hipos
              · simp only [List.getD_cons_zero] at hlt
                omega
              · obtain ⟨i2, rfl⟩ : ∃ i2, i = i2 + 1 := ⟨i - 1, by omega⟩
                refine ⟨i2, by omega, ?_, ?_⟩
                · simpa [List.getD_cons_succ] using hlt
                · intro j hj
                  simpa [List.getD_cons_succ] using hpre (j + 1) (by omega)

/-- On a 32-byte input, the 32-index loop cap is the whole input. -/
theorem compareFingerprints_eq_cfAux {a b : Bytes}
    (ha : a.length = 32) (hb : b.length = 32) :
    compareFingerprints a b = cfAux a b := by
  unfold compareFingerprints
  rw [List.take_all_of_le (by omega), List.take_all_of_le (by omega)]

/-- C7: on 32-byte inputs, `compareFingerprints` is the byte-lexicographic
three-way comparison: 0 exactly on bit-identical inputs, antisymmetric,
trichotomous, transitive, and it returns 1 exactly when the first
differing byte is larger in the first argument. -/
theorem compareFingerprints_strict_total_order (a b c : Bytes)
    (ha : a.length = 32) (hb : b.length = 32) (hc : c.length = 32) :
    (compareFingerprints a b = 0 ↔ a = b) ∧
    (compareFingerprints a b = 1 ↔ compareFingerprints b a = -1) ∧
    (compareFingerprints a b = 1 ∨ compareFingerprints a b = -1 ∨
      compareFingerprints a b = 0) ∧
    (compareFingerprints a b = 1 → compareFingerprints b c = 1 →
      compareFingerprints a c = 1) ∧
    (compareFingerprints a b = 1 ↔
      ∃ i, i < 32 ∧ b.getD i 0 < a.getD i 0 ∧
        ∀ j, j < i → a.getD j 0 = b.getD j 0) := by
  rw [compareFingerprints_eq_cfAux ha hb, compareFingerprints_eq_cfAux hb ha,
    compareFingerprints_eq_cfAux ha hc, compareFingerprints_eq_cfAux hb hc]
  refine ⟨cfAux_eq_zero a b (by omega), ?_, cfAux_tri a b, cfAux_trans a b c, ?_⟩
  · rw [cfAux_neg a b]
    omega
  · rw [cfAux_eq_one a b (by omega), ha]

/-- Witness for C7: two fingerprints that agree everywhere except byte 7,
where they hold `0x34` and `0x33`, are ordered by that byte. -/
theorem compareFingerprints_strict_total_order_witness :
    (compareFingerprints fpByte7High fpByte7Low = 0 ↔ fpByte7High = fpByte7Low) ∧
    (compareFingerprints fpByte7High fpByte7Low = 1 ↔
      compareFingerprints fpByte7Low fpByte7High = -1) ∧
    (compareFingerprints fpByte7High fpByte7Low = 1 ∨
      compareFingerprints fpByte7High fpByte7Low = -1 ∨
      compareFingerprints fpByte7High fpByte7Low = 0) ∧
    (compareFingerprints fpByte7High fpByte7Low = 1 →
      compareFingerprints fpByte7Low fpSpec = 1 →
      compareFingerprints fpByte7High fpSpec = 1) ∧
    (compareFingerprints fpByte7High fpByte7Low = 1 ↔
      ∃ i, i < 32 ∧ fpByte7Low.getD i 0 < fpByte7High.getD i 0 ∧
        ∀ j, j < i → fpByte7High.getD j 0 = fpByte7Low.getD j 0) :=
  compareFingerprints_strict_total_order fpByte7High fpByte7Low fpSpec
    (by decide) (by decide) (by decide)

/-- Writing two 32-byte arrays at offsets 0 and 32 of a 64-byte zero
buffer concatenates them. -/
theorem uset_append {a b : Bytes} (ha : a.length = 32) (hb : b.length = 32) :
    uset (uset (List.replicate 64 0) a 0) b 32 = a ++ b := by
  unfold uset
  simp only [List.take_zero, List.nil_append, Nat.zero_add, ha, hb]
  have hdrop32 : (List.replicate 64 (0 : Nat)).drop 32 = List.replicate 32 0 := by
    rw [List.drop_replicate]
  rw [hdrop32]
  have htake : (a ++ List.replicate 32 (0 : Nat)).take 32 = a := by
    conv_lhs => rw [← ha]
    exact List.take_left a _
  have hdrop : (a ++ List.replicate 32 (0 : Nat)).drop 64 = [] := by
    apply List.drop_eq_nil_of_le
    simp [ha]
  rw [htake, hdrop, List.append_nil]

/-- Digit strings stay within the digit count of the bound. -/
theorem natToDigits_len : ∀ (fuel k n : Nat), n < 10 ^ k →
    (natToDigits 10 fuel n).length ≤ k := by
  intro fuel
  induction fuel with
  | zero =>
      intro k n h
      simp [natToDigits]
  | succ fuel ih =>
      intro k n h
      by_cases h0 : n = 0
      · simp [natToDigits, h0]
      · simp only [natToDigits, if_neg h0, List.length_cons]
        cases k with
        | zero =>
            simp at h
            omega
        | succ k2 =>
            have hdiv : n / 10 < 10 ^ k2 := by
              rw [Nat.div_lt_iff_lt_mul (by norm_num)]
              calc n < 10 ^ (k2 + 1) := h
                _ = 10 ^ k2 * 10 := by ring
            have := ih k2 (n / 10) hdiv
            omega

/-- Every character of a digit string is a decimal digit. -/
theorem natToDigits_digit : ∀ (fuel n : Nat),
    ∀ ch ∈ natToDigits 10 fuel n, isDigitCh ch = true := by
  intro fuel
  induction fuel with
  | zero =>
      intro n ch hch
      simp [natToDigits] at hch
  | succ fuel ih =>
      intro n ch hch
      by_cases h0 : n = 0
      · simp [natToDigits, h0] at hch
      · simp only [natToDigits, if_neg h0] at hch
        have hmod : n % 10 < 10 := Nat.mod_lt _ (by norm_num)
        rcases List.mem_cons.mp hch with rfl | hch2
        · rw [if_pos hmod]
          interval_cases h : n % 10 <;> decide
        · exact ih (n / 10) ch hch2

/-- The decimal rendering of `n < 10^k` (`k ≥ 1`) has at most `k`
characters. -/
theorem natDec_length_le (k n : Nat) (h : n < 10 ^ k) (hk : 1 ≤ k) :
    (natDec n).length ≤ k := by
  unfold natDec natStr
  by_cases h0 : n = 0
  · simp [h0]
    omega
  · rw [if_neg h0, List.length_reverse]
    exact natToDigits_len n k n h

/-- The decimal rendering consists of decimal digits only. -/
theorem natDec_digit (n : Nat) : ∀ ch ∈ natDec n, isDigitCh ch = true := by
  unfold natDec natStr
  by_cases h0 : n = 0
  · rw [if_pos h0]
    intro ch hch
    simp at hch
    subst hch
    decide
  · rw [if_neg h0]
    intro ch hch
    rw [List.mem_reverse] at hch
    exact natToDigits_digit n n ch hch

/-- `generateSAS` computed through the canonical concatenation. -/
theorem generateSAS_eq_form (a b : Bytes) (ha : a.length = 32) (hb : b.length = 32) :
    generateSAS a b =
      padStart 4 '0' (natDec ((((sha256 (sasCombined a b)).getD 0 0 <<< 8) |||
        (sha256 (sasCombined a b)).getD 1 0) % 10000)) := by
  simp only [generateSAS, sasCombined]
  by_cases hcmp : 0 ≤ compareFingerprints a b
  · rw [if_pos hcmp, if_pos hcmp, uset_append ha hb]
  · rw [if_neg hcmp, if_neg hcmp, uset_append hb ha]

/-- C8: `generateSAS` is symmetric on 32-byte fingerprints, and the
result is the zero-padded 4-digit decimal of the first two bytes of
SHA-256 over the canonically ordered (greater-or-equal first) 64-byte
concatenation, taken modulo 10000. -/
theorem generateSAS_symmetric (a b : Bytes) (ha : a.length = 32) (hb : b.length = 32) :
    generateSAS a b = generateSAS b a ∧
    generateSAS a b =
      padStart 4 '0' (natDec ((((sha256 (sasCombined a b)).getD 0 0 <<< 8) |||
        (sha256 (sasCombined a b)).getD 1 0) % 10000)) ∧
    (generateSAS a b).length = 4 ∧
    (∀ ch ∈ generateSAS a b, isDigitCh ch = true) := by
  have hform := generateSAS_eq_form a b ha hb
  have hcombsym : sasCombined a b = sasCombined b a := by
    unfold sasCombined
    have hneg := cfAux_neg a b
    have hcab : compareFingerprints a b = cfAux a b :=
      compareFingerprints_eq_cfAux ha hb
    have hcba : compareFingerprints b a = cfAux b a :=
      compareFingerprints_eq_cfAux hb ha
    rcases cfAux_tri a b with h | h | h
    · rw [if_pos (by omega), if_neg (by omega)]
    · rw [if_neg (by omega), if_pos (by omega)]
    · have hab : a = b := (cfAux_eq_zero a b (by omega)).mp h
      subst hab
      rfl
  have hsym : generateSAS a b = generateSAS b a := by
    rw [hform, generateSAS_eq_form b a hb ha, hcombsym]
  have hmod : (((sha256 (sasCombined a b)).getD 0 0 <<< 8) |||
      (sha256 (sasCombined a b)).getD 1 0) % 10000 < 10 ^ 4 := by
    have : (10 : Nat) ^ 4 = 10000 := by norm_num
    rw [this]
    exact Nat.mod_lt _ (by norm_num)
  have hdlen : (natDec ((((sha256 (sasCombined a b)).getD 0 0 <<< 8) |||
      (sha256 (sasCombined a b)).getD 1 0) % 10000)).length ≤ 4 :=
    natDec_length_le 4 _ hmod (by norm_num)
  refine ⟨hsym, hform, ?_, ?_⟩
  · rw [hform]
    unfold padStart
    simp only [List.length_append, List.length_replicate]
    omega
  · rw [hform]
    intro ch hch
    unfold padStart at hch
    rcases List.mem_append.mp hch with hch2 | hch2
    · have := List.eq_of_mem_replicate hch2
      subst this
      decide
    · exact natDec_digit _ ch hch2

/-- Witness for C8: the two concrete byte-7 fingerprints. -/
theorem generateSAS_symmetric_witness :
    generateSAS fpByte7High fpByte7Low = generateSAS fpByte7Low fpByte7High ∧
    generateSAS fpByte7High fpByte7Low =
      padStart 4 '0' (natDec ((((sha256 (sasCombined fpByte7High fpByte7Low)).getD 0 0 <<< 8) |||
        (sha256 (sasCombined fpByte7High fpByte7Low)).getD 1 0) % 10000)) ∧
    (generateSAS fpByte7High fpByte7Low).length = 4 ∧
    (∀ ch ∈ generateSAS fpByte7High fpByte7Low, isDigitCh ch = true) :=
  generateSAS_symmetric fpByte7High fpByte7Low (by decide) (by decide)

/-- SHA-256 digests are 32 bytes long. -/
theorem sha256_length (msg : Bytes) : (sha256 msg).length = 32 := by
  simp [sha256, wordBytes]

/-- SHA-256 digest bytes are below 256. -/
theorem sha256_lt (msg : Bytes) : ∀ x ∈ sha256 msg, x < 256 := by
  have hwb : ∀ w : Nat, ∀ x ∈ wordBytes w, x < 256 := by
    intro w x hx
    simp only [wordBytes, List.mem_cons, List.not_mem_nil, or_false] at hx
    have h1 : w >>> 24 &&& 255 ≤ 255 := Nat.and_le_right
    have h2 : w >>> 16 &&& 255 ≤ 255 := Nat.and_le_right
    have h3 : w >>> 8 &&& 255 ≤ 255 := Nat.and_le_right
    have h4 : w &&& 255 ≤ 255 := Nat.and_le_right
    rcases hx with rfl | rfl | rfl | rfl <;> omega
  intro x hx
  simp only [sha256, List.mem_append, or_assoc] at hx
  rcases hx with h | h | h | h | h | h | h | h <;> exact hwb _ x h

/-- HMAC-SHA256 digests are 32 bytes long. -/
theorem hmacSha256_length (key msg : Bytes) : (hmacSha256 key msg).length = 32 :=
  sha256_length _

/-- HMAC-SHA256 digest bytes are below 256. -/
theorem hmacSha256_lt (key msg : Bytes) : ∀ x ∈ hmacSha256 key msg, x < 256 :=
  sha256_lt _

/-- HKDF-SHA256 taken to at most one block produces exactly the requested
number of bytes, all below 256. -/
theorem hkdfDerive_spec (ikm salt info : Bytes) (L : Nat) (hL : 1 ≤ L) (hL32 : L ≤ 32) :
    (hkdfDerive ikm salt info L).length = L ∧
      ∀ x ∈ hkdfDerive ikm salt info L, x < 256 := by
  unfold hkdfDerive
  have hnum : (L + 31) / 32 = 1 := by omega
  rw [hnum]
  simp only [hkdfBlocks, List.append_nil]
  constructor
  · rw [List.length_take, hmacSha256_length]
    omega
  · intro x hx
    exact hmacSha256_lt _ _ x (List.mem_of_mem_take hx)

/-- Length of the padless base64 rendering. -/
theorem base64Std_length : ∀ (n : Nat) (l : Bytes), l.length ≤ n →
    (base64Std l).length =
      4 * (l.length / 3) + (if l.length % 3 = 0 then 0 else l.length % 3 + 1) := by
  intro n
  induction n with
  | zero =>
      intro l h
      have : l = [] := List.length_eq_zero.mp (by omega)
      subst this
      simp [base64Std]
  | succ n ih =>
      intro l h
      match l with
      | [] => simp [base64Std]
      | [a] => simp [base64Std]
      | [a, b] => simp [base64Std]
      | a :: b :: c :: rest =>
          have hr := ih rest (by simp at h ⊢; omega)
          simp only [base64Std, List.length_cons]
          rw [hr]
          by_cases h3 : rest.length % 3 = 0
          · rw [if_pos h3, if_pos (by omega)]
            omega
          · rw [if_neg h3, if_neg (by omega)]
            omega

/-- Every character the padless base64 rendering emits is a table entry at
an index below 64. -/
theorem base64Std_chars : ∀ (n : Nat) (l : Bytes), l.length ≤ n →
    (∀ x ∈ l, x < 256) →
    ∀ ch ∈ base64Std l, ∃ k, k < 64 ∧ ch = b64StdTable.getD k '?' := by
  intro n
  induction n with
  | zero =>
      intro l h hlt ch hch
      have : l = [] := List.length_eq_zero.mp (by omega)
      subst this
      simp [base64Std] at hch
  | succ n ih =>
      intro l h hlt ch hch
      have hidx : ∀ a b : Nat, a < 256 → b < 256 →
          (a >>> 2 < 64 ∧ ((a &&& 0x3) <<< 4) ||| (b >>> 4) < 64 ∧
            ((a &&& 0xf) <<< 2) < 64 ∧ (a &&& 0x3f) < 64 ∧
            ((a &&& 0x3) <<< 4) < 64 ∧
            ((a &&& 0xf) <<< 2) ||| (b >>> 6) < 64) := by
        intro a b hab hbb
        have h1 : a >>> 2 = a / 4 := Nat.shiftRight_eq_div_pow a 2
        have h2 : a &&& 0x3 ≤ 3 := Nat.and_le_right
        have h3 : a &&& 0xf ≤ 15 := Nat.and_le_right
        have h4 : a &&& 0x3f ≤ 63 := Nat.and_le_right
        have h5 : b >>> 4 = b / 16 := Nat.shiftRight_eq_div_pow b 4
        have h6 : (a &&& 0x3) <<< 4 = (a &&& 0x3) * 16 := Nat.shiftLeft_eq _ 4
        have h7 : (a &&& 0xf) <<< 2 = (a &&& 0xf) * 4 := Nat.shiftLeft_eq _ 2
        have h8 : b >>> 6 = b / 64 := Nat.shiftRight_eq_div_pow b 6
        refine ⟨by omega, ?_, by omega, by omega, by omega, ?_⟩
        · have := Nat.or_lt_two_pow
            (show (a &&& 0x3) <<< 4 < 2 ^ 6 by omega)
            (show b >>> 4 < 2 ^ 6 by omega)
          simpa using this
        · have := Nat.or_lt_two_pow
            (show (a &&& 0xf) <<< 2 < 2 ^ 6 by omega)
            (show b >>> 6 < 2 ^ 6 by omega)
          simpa using this
      match l with
      | [] => simp [base64Std] at hch
      | [a] =>
          obtain ⟨i1, -, -, -, i5, -⟩ := hidx a 0 (hlt a (by simp)) (by norm_num)
          simp only [base64Std, List.mem_cons, List.not_mem_nil, or_false] at hch
          rcases hch with rfl | rfl
          · exact ⟨_, i1, rfl⟩
          · exact ⟨_, i5, rfl⟩
      | [a, b] =>
          obtain ⟨i1, i2, -, -, -, -⟩ := hidx a b (hlt a (by simp)) (hlt b (by simp))
          obtain ⟨-, -, i3, -, -, -⟩ := hidx b 0 (hlt b (by simp)) (by norm_num)
          simp only [base64Std, List.mem_cons, List.not_mem_nil, or_false] at hch
          rcases hch with rfl | rfl | rfl
          · exact ⟨_, i1, rfl⟩
          · exact ⟨_, i2, rfl⟩
          · exact ⟨_, i3, rfl⟩
      | a :: b :: c :: rest =>
          obtain ⟨i1, i2, -, -, -, -⟩ := hidx a b (hlt a (by simp)) (hlt b (by simp))
          obtain ⟨-, -, -, -, -, i3⟩ := hidx b c (hlt b (by simp)) (hlt c (by simp))
          obtain ⟨-, -, -, i4, -, -⟩ := hidx c 0 (hlt c (by simp)) (by norm_num)
          simp only [base64Std, List.mem_cons] at hch
          rcases hch with rfl | rfl | rfl | rfl | hch2
          · exact ⟨_, i1, rfl⟩
          · exact ⟨_, i2, rfl⟩
          · exact ⟨_, i3, rfl⟩
          · exact ⟨_, i4, rfl⟩
          · exact ih rest (by simp at h ⊢; omega)
              (fun x hx => hlt x (by simp [hx])) ch hch2

/-- All characters of `base64urlEncode` on true bytes are in the URL-safe
base64 alphabet. -/
theorem base64urlEncode_alpha (l : Bytes) (hlt : ∀ x ∈ l, x < 256) :
    ∀ ch ∈ base64urlEncode l, isBase64UrlChar ch = true := by
  intro ch hch
  simp only [base64urlEncode, List.mem_map] at hch
  obtain ⟨ch0, hch0, rfl⟩ := hch
  obtain ⟨k, hk, rfl⟩ := base64Std_chars l.length l (le_refl _) hlt ch0 hch0
  have htab : ∀ k, k < 64 → isBase64UrlChar
      (if b64StdTable.getD k '?' = '+' then '-'
        else if b64StdTable.getD k '?' = '/' then '_'
        else b64StdTable.getD k '?') = true := by decide
  exact htab k hk

/-- The length of `base64urlEncode` equals that of the padless base64
rendering. -/
theorem base64urlEncode_length (l : Bytes) :
    (base64urlEncode l).length = (base64Std l).length := by
  simp [base64urlEncode]

/-- C6: on a 32-byte fingerprint, `deriveCredentials` succeeds and
returns the base64url encodings of the two HKDF-SHA256 expansions (4
bytes for the ufrag, 18 for the pwd): 6 and 24 characters respectively,
all in the URL-safe base64 alphabet; and the function is a pure
deterministic function of the fingerprint bytes. -/
theorem deriveCredentials_spec (fp : Bytes) (h : fp.length = 32) :
    ∃ creds, deriveCredentials fp = .ok creds ∧
      creds.ufrag.length = 6 ∧ creds.pwd.length = 24 ∧
      (∀ ch ∈ creds.ufrag, isBase64UrlChar ch = true) ∧
      (∀ ch ∈ creds.pwd, isBase64UrlChar ch = true) ∧
      creds.ufrag = base64urlEncode (hkdfDerive fp [] HKDF_INFO_UFRAG 4) ∧
      creds.pwd = base64urlEncode (hkdfDerive fp [] HKDF_INFO_PWD 18) ∧
      (∀ fp2, fp2 = fp → deriveCredentials fp2 = deriveCredentials fp) := by
  obtain ⟨hulen, hult⟩ := hkdfDerive_spec fp [] HKDF_INFO_UFRAG 4 (by omega) (by omega)
  obtain ⟨hplen, hplt⟩ := hkdfDerive_spec fp [] HKDF_INFO_PWD 18 (by omega) (by omega)
  refine ⟨credsOf fp, by simp [deriveCredentials, credsOf, h, HKDF_UFRAG_LENGTH,
    HKDF_PWD_LENGTH], ?_, ?_, ?_, ?_, rfl, rfl, fun fp2 h2 => by rw [h2]⟩
  · rw [show (credsOf fp).ufrag = base64urlEncode (hkdfDerive fp [] HKDF_INFO_UFRAG 4)
      from rfl]
    rw [base64urlEncode_length, base64Std_length _ _ (le_refl _), hulen]
    decide
  · rw [show (credsOf fp).pwd = base64urlEncode (hkdfDerive fp [] HKDF_INFO_PWD 18)
      from rfl]
    rw [base64urlEncode_length, base64Std_length _ _ (le_refl _), hplen]
    decide
  · exact fun ch hch => base64urlEncode_alpha _ hult ch hch
  · exact fun ch hch => base64urlEncode_alpha _ hplt ch hch

/-- Witness for C6: the all-zero 32-byte fingerprint. -/
theorem deriveCredentials_spec_witness :
    ∃ creds, deriveCredentials (List.replicate 32 0) = .ok creds ∧
      creds.ufrag.length = 6 ∧ creds.pwd.length = 24 ∧
      (∀ ch ∈ creds.ufrag, isBase64UrlChar ch = true) ∧
      (∀ ch ∈ creds.pwd, isBase64UrlChar ch = true) ∧
      creds.ufrag = base64urlEncode (hkdfDerive (List.replicate 32 0) []
        HKDF_INFO_UFRAG 4) ∧
      creds.pwd = base64urlEncode (hkdfDerive (List.replicate 32 0) []
        HKDF_INFO_PWD 18) ∧
      (∀ fp2, fp2 = List.replicate 32 0 →
        deriveCredentials fp2 = deriveCredentials (List.replicate 32 0)) :=
  deriveCredentials_spec (List.replicate 32 0) (by decide)

/-- `mapExcept` preserves list length on success. -/
theorem mapExcept_ok_length {ε α β : Type} {f : α → Except ε β} :
    ∀ {l : List α} {ys : List β}, mapExcept f l = .ok ys → ys.length = l.length := by
  intro l
  induction l with
  | nil =>
      intro ys h
      simp only [mapExcept] at h
      cases h
      rfl
  | cons x xs ih =>
      intro ys h
      simp only [mapExcept] at h
      cases hx : f x with
      | error e => simp only [hx] at h; cases h
      | ok y =>
          simp only [hx] at h
          cases hxs : mapExcept f xs with
          | error e => simp only [hxs] at h; cases h
          | ok ys2 =>
              simp only [hxs] at h
              cases h
              simp [ih hxs]

/-- `parseIPv4` returns 4 bytes on success. -/
theorem parseIPv4_ok_length {ip : Str} {bs : Bytes} (h : parseIPv4 ip = .ok bs) :
    bs.length = 4 := by
  simp only [parseIPv4, bind, Except.bind, throw, throwThe, MonadExceptOf.throw] at h
  split at h
  · cases h
  · simpa using mapExcept_ok_length h

/-- `matchIPv4Mapped` captures exactly 4 digit groups. -/
theorem matchIPv4Mapped_length {s : Str} {gs : List Str}
    (h : matchIPv4Mapped s = some gs) : gs.length = 4 := by
  unfold matchIPv4Mapped at h
  repeat' split at h
  all_goals (try cases h)
  all_goals rfl

/-- `parseIPv6` returns 16 bytes on success. -/
theorem parseIPv6_ok_length {ip : Str} {bs : Bytes} (h : parseIPv6 ip = .ok bs) :
    bs.length = 16 := by
  have hflat : ∀ (ws : List Nat),
      ((ws.map fun v => [(v >>> 8) &&& 0xff, v &&& 0xff]).flatten).length = 2 * ws.length := by
    intro ws
    induction ws with
    | nil => simp
    | cons w ws ih => simp [ih]; omega
  simp only [parseIPv6, bind, Except.bind, throw, throwThe, MonadExceptOf.throw,
    pure, Except.pure] at h
  split at h
  · cases h
  · split at h
    · -- IPv4-mapped branch
      rename_i groups hg
      split at h
      · cases h
      · rename_i octets hoct
        cases h
        have h1 := mapExcept_ok_length hoct
        have h2 := matchIPv4Mapped_length hg
        simp
        omega
    · -- general branch
      repeat' split at h
      all_goals first
        | exact Except.noConfusion h
        | (rename_i words hw
           cases h
           rw [hflat]
           have h1 := mapExcept_ok_length hw
           simp at h1
           omega)

/-- `parseMdnsUUID` returns 16 bytes on success. -/
theorem parseMdnsUUID_ok_length {hn : Str} {bs : Bytes}
    (h : parseMdnsUUID hn = .ok bs) : bs.length = 16 := by
  simp only [parseMdnsUUID, bind, Except.bind, throw, throwThe, MonadExceptOf.throw,
    pure, Except.pure] at h
  split at h
  all_goals first
    | exact Except.noConfusion h
    | (cases h; simp)

/-- Bit extraction from the flags byte built by `encodeCandidate`: the four
fields are recovered by the decoder's shifts and masks. -/
theorem flags_bits : ∀ f < 3, ∀ p < 2, ∀ t < 2, ∀ k < 3,
    (f ||| p <<< 2 ||| t <<< 3 ||| k <<< 4) &&& 3 = f ∧
    ((f ||| p <<< 2 ||| t <<< 3 ||| k <<< 4) >>> 2) &&& 1 = p ∧
    ((f ||| p <<< 2 ||| t <<< 3 ||| k <<< 4) >>> 3) &&& 1 = t ∧
    ((f ||| p <<< 2 ||| t <<< 3 ||| k <<< 4) >>> 4) &&& 3 = k := by decide

/-- A 16-bit port is recovered from its big-endian byte split. -/
theorem port_bytes_roundtrip (p : Nat) (hp : p ≤ 65535) :
    ((((p >>> 8) &&& 0xff) <<< 8) ||| (p &&& 0xff)) = p := by
  have h1 : p >>> 8 = p / 256 := by
    rw [Nat.shiftRight_eq_div_pow]
  have h2 : p &&& 0xff = p % 256 := by
    have := Nat.and_pow_two_sub_one_eq_mod p 8
    norm_num at this
    exact this
  have h3 : p / 256 &&& 0xff = p / 256 := by
    have := Nat.and_pow_two_sub_one_eq_mod (p / 256) 8
    norm_num at this
    rw [this, Nat.mod_eq_of_lt (by omega)]
  have h4 : (p / 256) <<< 8 = 256 * (p / 256) := by
    rw [Nat.shiftLeft_eq]
    ring
  have h5 := Nat.mul_add_lt_is_or
    (show p % 256 < 2 ^ 8 by
      have := Nat.mod_lt p (show 0 < 256 by norm_num)
      omega) (p / 256)
  rw [h1, h2, h3, h4]
  norm_num at h5
  rw [← h5]
  omega

/-- `finishCandidate` on a record laid out as address bytes followed by the
big-endian port split recovers the port and reads exactly the declared
extent. -/
theorem finishCandidate_spec (flags L : Nat) (bs t : Bytes) (ip : Str) (port : Nat)
    (hlen : bs.length = L) (hport : port ≤ 65535) :
    finishCandidate flags (bs ++ ((port >>> 8) &&& 0xff) :: (port &&& 0xff) :: t) L ip =
      .ok ({ ip := ip
             port := port
             type := if (flags >>> 3) &&& 1 = 1 then CandType.srflx else CandType.host
             protocol := if (flags >>> 2) &&& 1 = 1 then Proto.tcp else Proto.udp
             tcpType := if (flags >>> 2) &&& 1 = 1 then
                 some (if (flags >>> 4) &&& 0b11 = 1 then TcpKind.active
                       else if (flags >>> 4) &&& 0b11 = 2 then TcpKind.so
                       else TcpKind.passive)
               else none }, 1 + L + 2) := by
  have hget1 : (bs ++ ((port >>> 8) &&& 0xff) :: (port &&& 0xff) :: t).get? L =
      some ((port >>> 8) &&& 0xff) := by
    rw [List.get?_append_right (by omega), hlen]
    simp
  have hget2 : (bs ++ ((port >>> 8) &&& 0xff) :: (port &&& 0xff) :: t).get? (L + 1) =
      some (port &&& 0xff) := by
    rw [List.get?_append_right (by omega), hlen]
    simp
  unfold finishCandidate
  rw [hget1, hget2]
  simp only [port_bytes_roundtrip port hport]

/-- `decodeCandidate` on an encoded IPv4 record (family bits 0). -/
theorem decodeCandidate_encoded0 (flags : Nat) (bs t : Bytes) (port : Nat)
    (hfam : flags &&& 0b11 = 0) (hlen : bs.length = 4) (hport : port ≤ 65535) :
    decodeCandidate (flags :: (bs ++ ((port >>> 8) &&& 0xff) :: (port &&& 0xff) :: t)) =
      .ok ({ ip := formatIPv4 bs
             port := port
             type := if (flags >>> 3) &&& 1 = 1 then CandType.srflx else CandType.host
             protocol := if (flags >>> 2) &&& 1 = 1 then Proto.tcp else Proto.udp
             tcpType := if (flags >>> 2) &&& 1 = 1 then
                 some (if (flags >>> 4) &&& 0b11 = 1 then TcpKind.active
                       else if (flags >>> 4) &&& 0b11 = 2 then TcpKind.so
                       else TcpKind.passive)
               else none }, 7) := by
  have htake : (bs ++ ((port >>> 8) &&& 0xff) :: (port &&& 0xff) :: t).take 4 = bs := by
    rw [show 4 = bs.length from hlen.symm, List.take_left]
  simp only [decodeCandidate, hfam]
  split
  · rename_i hcond
    exfalso
    simp only [List.length_cons, List.length_append, gt_iff_lt] at hcond
    omega
  · rw [htake, finishCandidate_spec flags 4 bs t (formatIPv4 bs) port hlen hport]

/-- `decodeCandidate` on an encoded IPv6 record (family bits 1). -/
theorem decodeCandidate_encoded1 (flags : Nat) (bs t : Bytes) (port : Nat)
    (hfam : flags &&& 0b11 = 1) (hlen : bs.length = 16) (hport : port ≤ 65535) :
    decodeCandidate (flags :: (bs ++ ((port >>> 8) &&& 0xff) :: (port &&& 0xff) :: t)) =
      .ok ({ ip := formatIPv6 bs
             port := port
             type := if (flags >>> 3) &&& 1 = 1 then CandType.srflx else CandType.host
             protocol := if (flags >>> 2) &&& 1 = 1 then Proto.tcp else Proto.udp
             tcpType := if (flags >>> 2) &&& 1 = 1 then
                 some (if (flags >>> 4) &&& 0b11 = 1 then TcpKind.active
                       else if (flags >>> 4) &&& 0b11 = 2 then TcpKind.so
                       else TcpKind.passive)
               else none }, 19) := by
  have htake : (bs ++ ((port >>> 8) &&& 0xff) :: (port &&& 0xff) :: t).take 16 = bs := by
    rw [show 16 = bs.length from hlen.symm, List.take_left]
  simp only [decodeCandidate, hfam]
  split
  · rename_i hcond
    exfalso
    simp only [List.length_cons, List.length_append, gt_iff_lt] at hcond
    omega
  · rw [htake, finishCandidate_spec flags 16 bs t (formatIPv6 bs) port hlen hport]

/-- `decodeCandidate` on an encoded mDNS record (family bits 2). -/
theorem decodeCandidate_encoded2 (flags : Nat) (bs t : Bytes) (port : Nat)
    (hfam : flags &&& 0b11 = 2) (hlen : bs.length = 16) (hport : port ≤ 65535) :
    decodeCandidate (flags :: (bs ++ ((port >>> 8) &&& 0xff) :: (port &&& 0xff) :: t)) =
      .ok ({ ip := formatMdns bs
             port := port
             type := if (flags >>> 3) &&& 1 = 1 then CandType.srflx else CandType.host
             protocol := if (flags >>> 2) &&& 1 = 1 then Proto.tcp else Proto.udp
             tcpType := if (flags >>> 2) &&& 1 = 1 then
                 some (if (flags >>> 4) &&& 0b11 = 1 then TcpKind.active
                       else if (flags >>> 4) &&& 0b11 = 2 then TcpKind.so
                       else TcpKind.passive)
               else none }, 19) := by
  have htake : (bs ++ ((port >>> 8) &&& 0xff) :: (port &&& 0xff) :: t).take 16 = bs := by
    rw [show 16 = bs.length from hlen.symm, List.take_left]
  simp only [decodeCandidate, hfam]
  split
  · rename_i hcond
    exfalso
    simp only [List.length_cons, List.length_append, gt_iff_lt] at hcond
    omega
  · rw [htake, finishCandidate_spec flags 16 bs t (formatMdns bs) port hlen hport]

/-- The decoder's type bit inverts the encoder's. -/
theorem decode_type_eq (cty : CandType) :
    (if (if cty = CandType.srflx then 1 else 0) = 1 then CandType.srflx
     else CandType.host) = cty := by
  cases cty <;> simp

/-- The decoder's protocol bit inverts the encoder's. -/
theorem decode_proto_eq (cproto : Proto) :
    (if (if cproto = Proto.tcp then 1 else 0) = 1 then Proto.tcp
     else Proto.udp) = cproto := by
  cases cproto <;> simp

/-- The decoder's tcp-subtype bits invert the encoder's, for candidates
that carry a tcp subtype exactly when their protocol is tcp. -/
theorem decode_tcpType_eq (cproto : Proto) (ctcp : Option TcpKind)
    (hpt : (match cproto, ctcp with
            | Proto.tcp, some _ => true
            | Proto.udp, none => true
            | _, _ => false) = true) :
    (if (if cproto = Proto.tcp then 1 else 0) = 1 then
        some (if (if cproto = Proto.tcp then
                    match ctcp with
                    | some TcpKind.active => 1
                    | some TcpKind.so => 2
                    | some TcpKind.passive => 0
                    | none => 0
                  else 0) = 1 then TcpKind.active
              else if (if cproto = Proto.tcp then
                         match ctcp with
                         | some TcpKind.active => 1
                         | some TcpKind.so => 2
                         | some TcpKind.passive => 0
                         | none => 0
                       else 0) = 2 then TcpKind.so
              else TcpKind.passive)
      else none) = ctcp := by
  cases cproto <;> rcases ctcp with _ | tk
  · simp
  · cases hpt
  · cases hpt
  · cases tk <;> simp

/-- Every canonical candidate's record encodes successfully and decodes
back to the candidate itself, in any byte context. -/
theorem encodeCandidate_roundtrip (c : QWBPCandidate) (hc : candCanon c = true) :
    ∃ rec, encodeCandidate c = .ok rec ∧
      rec.length = (if addrFamily c.ip = 0 then 7 else 19) ∧
      ∀ t, decodeCandidate (rec ++ t) = .ok (c, rec.length) := by
  simp only [candCanon, Bool.and_eq_true, decide_eq_true_eq] at hc
  obtain ⟨⟨⟨hca, hp1⟩, hp2⟩, hpt⟩ := hc
  unfold addrCanon at hca
  cases hparse : addrParse c.ip with
  | error e => simp [hparse] at hca
  | ok bs =>
      simp only [hparse] at hca
      have hfmt : addrFormat (addrFamily c.ip) bs = c.ip := eq_of_beq hca
      have hpv : (if c.protocol = Proto.tcp then 1 else 0) < 2 := by
        split <;> omega
      have htv : (if c.type = CandType.srflx then 1 else 0) < 2 := by
        split <;> omega
      have hkv : (if c.protocol = Proto.tcp then
          match c.tcpType with
          | some TcpKind.active => 1
          | some TcpKind.so => 2
          | some TcpKind.passive => 0
          | none => 0
        else 0) < 3 := by
        split
        · rcases c.tcpType with _ | tk
          · decide
          · cases tk <;> decide
        · omega
      by_cases hm : isMdns c.ip = true
      · -- mDNS record (family 2)
        have haf : addrFamily c.ip = 2 := by simp [addrFamily, hm]
        have hparse2 : parseMdnsUUID c.ip = .ok bs := by
          simpa [addrParse, hm] using hparse
        have hbs : bs.length = 16 := parseMdnsUUID_ok_length hparse2
        rw [haf] at hfmt
        have hfmt2 : formatMdns bs = c.ip := by simpa [addrFormat] using hfmt
        obtain ⟨hb0, hb1, hb2, hb3⟩ := flags_bits 2 (by norm_num) _ hpv _ htv _ hkv
        have henc : encodeCandidate c = .ok (
            (2 ||| (if c.protocol = Proto.tcp then 1 else 0) <<< 2 |||
            (if c.type = CandType.srflx then 1 else 0) <<< 3 |||
            (if c.protocol = Proto.tcp then
                match c.tcpType with
                | some TcpKind.active => 1
                | some TcpKind.so => 2
                | some TcpKind.passive => 0
                | none => 0
              else 0) <<< 4) :: bs ++
            [(c.port >>> 8) &&& 0xff, c.port &&& 0xff]) := by
          simp only [encodeCandidate, hm, hparse2, Bool.not_true, Bool.false_and,
            eq_self_iff_true, if_true]
        refine ⟨_, henc, ?_, fun t => ?_⟩
        · simp [haf, hbs]
        · rw [show (
            (2 ||| (if c.protocol = Proto.tcp then 1 else 0) <<< 2 |||
            (if c.type = CandType.srflx then 1 else 0) <<< 3 |||
            (if c.protocol = Proto.tcp then
                match c.tcpType with
                | some TcpKind.active => 1
                | some TcpKind.so => 2
                | some TcpKind.passive => 0
                | none => 0
              else 0) <<< 4) :: bs ++
              [(c.port >>> 8) &&& 0xff, c.port &&& 0xff]) ++ t =
            (2 ||| (if c.protocol = Proto.tcp then 1 else 0) <<< 2 |||
            (if c.type = CandType.srflx then 1 else 0) <<< 3 |||
            (if c.protocol = Proto.tcp then
                match c.tcpType with
                | some TcpKind.active => 1
                | some TcpKind.so => 2
                | some TcpKind.passive => 0
                | none => 0
              else 0) <<< 4) ::
              (bs ++ ((c.port >>> 8) &&& 0xff) :: (c.port &&& 0xff) :: t)
            from by simp]
          rw [decodeCandidate_encoded2 _ bs t c.port hb0 hbs hp2]
          simp only [hb1, hb2, hb3]
          rw [decode_type_eq, decode_proto_eq, decode_tcpType_eq c.protocol c.tcpType hpt]
          simp [hfmt2, hbs]
      · -- not mDNS
        have hm2 : isMdns c.ip = false := by simpa using hm
        by_cases h6 : isIPv6 c.ip = true
        · -- IPv6 record (family 1)
          have h62 : isIPv6 c.ip = true := h6
          have haf : addrFamily c.ip = 1 := by simp [addrFamily, hm2, h62]
          have hparse2 : parseIPv6 c.ip = .ok bs := by
            simpa [addrParse, hm2, h62] using hparse
          have hbs : bs.length = 16 := parseIPv6_ok_length hparse2
          rw [haf] at hfmt
          have hfmt2 : formatIPv6 bs = c.ip := by simpa [addrFormat] using hfmt
          obtain ⟨hb0, hb1, hb2, hb3⟩ := flags_bits 1 (by norm_num) _ hpv _ htv _ hkv
          have henc : encodeCandidate c = .ok (
              (1 ||| (if c.protocol = Proto.tcp then 1 else 0) <<< 2 |||
              (if c.type = CandType.srflx then 1 else 0) <<< 3 |||
              (if c.protocol = Proto.tcp then
                  match c.tcpType with
                  | some TcpKind.active => 1
                  | some TcpKind.so => 2
                  | some TcpKind.passive => 0
                  | none => 0
                else 0) <<< 4) :: bs ++
              [(c.port >>> 8) &&& 0xff, c.port &&& 0xff]) := by
            simp only [encodeCandidate, hm2, h62, hparse2, Bool.not_false, Bool.true_and,
              Bool.false_eq_true, if_false, eq_self_iff_true, if_true]
          refine ⟨_, henc, ?_, fun t => ?_⟩
          · simp [haf, hbs]
          · rw [show (
              (1 ||| (if c.protocol = Proto.tcp then 1 else 0) <<< 2 |||
              (if c.type = CandType.srflx then 1 else 0) <<< 3 |||
              (if c.protocol = Proto.tcp then
                  match c.tcpType with
                  | some TcpKind.active => 1
                  | some TcpKind.so => 2
                  | some TcpKind.passive => 0
                  | none => 0
                else 0) <<< 4) :: bs ++
                [(c.port >>> 8) &&& 0xff, c.port &&& 0xff]) ++ t =
              (1 ||| (if c.protocol = Proto.tcp then 1 else 0) <<< 2 |||
              (if c.type = CandType.srflx then 1 else 0) <<< 3 |||
              (if c.protocol = Proto.tcp then
                  match c.tcpType with
                  | some TcpKind.active => 1
                  | some TcpKind.so => 2
                  | some TcpKind.passive => 0
                  | none => 0
                else 0) <<< 4) ::
                (bs ++ ((c.port >>> 8) &&& 0xff) :: (c.port &&& 0xff) :: t)
              from by simp]
            rw [decodeCandidate_encoded1 _ bs t c.port hb0 hbs hp2]
            simp only [hb1, hb2, hb3]
            rw [decode_type_eq, decode_proto_eq, decode_tcpType_eq c.protocol c.tcpType hpt]
            simp [hfmt2, hbs]
        · -- IPv4 record (family 0)
          have h62 : isIPv6 c.ip = false := by simpa using h6
          have haf : addrFamily c.ip = 0 := by simp [addrFamily, hm2, h62]
          have hparse2 : parseIPv4 c.ip = .ok bs := by
            simpa [addrParse, hm2, h62] using hparse
          have hbs : bs.length = 4 := parseIPv4_ok_length hparse2
          rw [haf] at hfmt
          have hfmt2 : formatIPv4 bs = c.ip := by simpa [addrFormat] using hfmt
          obtain ⟨hb0, hb1, hb2, hb3⟩ := flags_bits 0 (by norm_num) _ hpv _ htv _ hkv
          have henc : encodeCandidate c = .ok (
              (0 ||| (if c.protocol = Proto.tcp then 1 else 0) <<< 2 |||
              (if c.type = CandType.srflx then 1 else 0) <<< 3 |||
              (if c.protocol = Proto.tcp then
                  match c.tcpType with
                  | some TcpKind.active => 1
                  | some TcpKind.so => 2
                  | some TcpKind.passive => 0
                  | none => 0
                else 0) <<< 4) :: bs ++
              [(c.port >>> 8) &&& 0xff, c.port &&& 0xff]) := by
            simp only [encodeCandidate, hm2, h62, hparse2, Bool.not_false, Bool.true_and,
              Bool.false_eq_true, if_false, eq_self_iff_true, if_true]
          refine ⟨_, henc, ?_, fun t => ?_⟩
          · simp [haf, hbs]
          · rw [show (
              (0 ||| (if c.protocol = Proto.tcp then 1 else 0) <<< 2 |||
              (if c.type = CandType.srflx then 1 else 0) <<< 3 |||
              (if c.protocol = Proto.tcp then
                  match c.tcpType with
                  | some TcpKind.active => 1
                  | some TcpKind.so => 2
                  | some TcpKind.passive => 0
                  | none => 0
                else 0) <<< 4) :: bs ++
                [(c.port >>> 8) &&& 0xff, c.port &&& 0xff]) ++ t =
              (0 ||| (if c.protocol = Proto.tcp then 1 else 0) <<< 2 |||
              (if c.type = CandType.srflx then 1 else 0) <<< 3 |||
              (if c.protocol = Proto.tcp then
                  match c.tcpType with
                  | some TcpKind.active => 1
                  | some TcpKind.so => 2
                  | some TcpKind.passive => 0
                  | none => 0
                else 0) <<< 4) ::
                (bs ++ ((c.port >>> 8) &&& 0xff) :: (c.port &&& 0xff) :: t)
              from by simp]
            rw [decodeCandidate_encoded0 _ bs t c.port hb0 hbs hp2]
            simp only [hb1, hb2, hb3]
            rw [decode_type_eq, decode_proto_eq, decode_tcpType_eq c.protocol c.tcpType hpt]
            simp [hfmt2, hbs]

/-- Concatenated canonical records decode back to the candidate list: the
records occupy at least 7 bytes each, and the decoding loop returns the
original list under any sufficient fuel. -/
theorem decodeCandsGo_encoded : ∀ (cs : List QWBPCandidate) (recs : List Bytes),
    (∀ c ∈ cs, candCanon c = true) →
    mapExcept encodeCandidate cs = .ok recs →
    7 * cs.length ≤ recs.flatten.length ∧
      ∀ fuel, cs.length < fuel → decodeCandsGo fuel recs.flatten = .ok cs := by
  intro cs
  induction cs with
  | nil =>
      intro recs _ hmap
      simp only [mapExcept] at hmap
      cases hmap
      refine ⟨by simp, ?_⟩
      intro fuel hf
      match fuel, hf with
      | fuel + 1, _ => simp [decodeCandsGo, pure, Except.pure]
  | cons c cs ih =>
      intro recs hcanon hmap
      obtain ⟨rec, henc, hlen7, hdec⟩ := encodeCandidate_roundtrip c (hcanon c (by simp))
      have h7 : 7 ≤ rec.length := by
        rw [hlen7]
        split <;> omega
      simp only [mapExcept, henc] at hmap
      cases hrest : mapExcept encodeCandidate cs with
      | error e => simp only [hrest] at hmap; cases hmap
      | ok recs2 =>
          simp only [hrest] at hmap
          cases hmap
          obtain ⟨hlen2, hgo⟩ := ih recs2 (fun x hx => hcanon x (by simp [hx])) hrest
          refine ⟨?_, ?_⟩
          · simp only [List.flatten_cons, List.length_append, List.length_cons]
            omega
          · intro fuel hf
            match fuel, hf with
            | fuel + 1, hf =>
              have hne : rec ++ recs2.flatten ≠ [] := by
                intro hemp
                rw [List.append_eq_nil] at hemp
                rw [hemp.1] at h7
                simp at h7
              simp only [decodeCandsGo, List.flatten_cons]
              rw [if_neg hne]
              simp only [hdec recs2.flatten, List.drop_left]
              simp only [hgo fuel (by simpa using Nat.lt_of_succ_lt_succ hf)]

/-- C1 (amended): `decode` inverts `encode` on every 32-byte fingerprint and
every nonempty list of canonical candidates (address a fixed point of the
decoder's rendering of its parsed bytes, port in `1..65535`, and a tcp
subtype exactly when the protocol is tcp). -/
theorem decode_encode_roundtrip (fp : Bytes) (cs : List QWBPCandidate)
    (hfp : fp.length = 32) (hne : cs ≠ [])
    (hcanon : ∀ c ∈ cs, candCanon c = true) :
    ∃ bs, encode fp cs = .ok bs ∧
      decode bs = .ok { version := 0, fingerprint := fp, candidates := cs } := by
  obtain ⟨recs, hmap⟩ : ∃ recs, mapExcept encodeCandidate cs = .ok recs := by
    cases hm : mapExcept encodeCandidate cs with
    | ok recs => exact ⟨recs, rfl⟩
    | error e =>
        have hok : (mapExcept encodeCandidate cs).isOk = true :=
          (mapExcept_isOk _ _).mpr (fun c hc => by
            obtain ⟨rec, henc, -, -⟩ := encodeCandidate_roundtrip c (hcanon c hc)
            rw [henc]
            rfl)
        rw [hm] at hok
        cases hok
  obtain ⟨hlen7, hgo⟩ := decodeCandsGo_encoded cs recs hcanon hmap
  have hcslen : 1 ≤ cs.length := by
    cases cs
    · exact absurd rfl hne
    · simp
  have henc : encode fp cs =
      .ok (MAGIC_BYTE :: PROTOCOL_VERSION :: fp ++ recs.flatten) := by
    unfold encode
    rw [if_neg (by simp [hfp, FINGERPRINT_SIZE])]
    simp only [hmap, bind, Except.bind, pure, Except.pure]
  refine ⟨_, henc, ?_⟩
  have hmin : ¬((MAGIC_BYTE :: PROTOCOL_VERSION :: fp ++ recs.flatten).length <
      MIN_PACKET_SIZE) := by
    simp only [List.length_cons, List.length_append, hfp, MIN_PACKET_SIZE,
      HEADER_SIZE, FINGERPRINT_SIZE]
    omega
  have htake : (fp ++ recs.flatten).take FINGERPRINT_SIZE = fp := by
    rw [show FINGERPRINT_SIZE = fp.length from hfp.symm, List.take_left]
  have hdrop : (fp ++ recs.flatten).drop FINGERPRINT_SIZE = recs.flatten := by
    rw [show FINGERPRINT_SIZE = fp.length from hfp.symm, List.drop_left]
  have hcands : decodeCands recs.flatten = .ok cs :=
    hgo (recs.flatten.length + 1) (by omega)
  unfold decode
  rw [if_neg hmin]
  show (match decodeCands ((fp ++ recs.flatten).drop FINGERPRINT_SIZE) with
       | .error e => (.error e : Except DecErr QWBPPacket)
       | .ok candidates =>
           .ok { version := PROTOCOL_VERSION &&& 0b111,
                 fingerprint := (fp ++ recs.flatten).take FINGERPRINT_SIZE,
                 candidates := candidates }) = _
  rw [hdrop, htake]
  simp only [hcands]
  rfl

/-- Witness for the amended C1: a zero fingerprint with one canonical
candidate of each address family. -/
theorem decode_encode_roundtrip_witness :
    (List.replicate 32 0 : Bytes).length = 32 ∧
    ([candIPv4Host, candIPv6, candMdns] : List QWBPCandidate) ≠ [] ∧
    (∀ c ∈ ([candIPv4Host, candIPv6, candMdns] : List QWBPCandidate),
      candCanon c = true) ∧
    ∃ bs, encode (List.replicate 32 0) [candIPv4Host, candIPv6, candMdns] = .ok bs ∧
      decode bs = .ok { version := 0, fingerprint := List.replicate 32 0,
                        candidates := [candIPv4Host, candIPv6, candMdns] } :=
  ⟨by decide, by decide, by decide,
    decode_encode_roundtrip _ _ (by decide) (by decide) (by decide)⟩

end QWBP
